import Mathlib

/-
Verification of the rocWMMA pipelined GEMM compute core (device kernel
mmaSyncLds, src/unnamed/part_001) and its host-side validation helpers
(gemm_cpu_h and compareEqual, src/samples/common.hpp).

Embedding conventions:
 - matrix buffers are total functions from linear addresses to exact
   rational element values, so every arithmetic identity is exact;
 - the per-wave kernel body is translated statement by statement from
   part_001; the WMMA helper library (MappingUtil, fragment types and
   their load/store/mma capabilities) is not part of the shown sources,
   so those leaves are modelled from the specification (each such
   definition is marked in its doc comment);
 - the workgroup barrier is modelled as an interference point: an
   arbitrary environment function that may rewrite shared memory, with
   the discipline (each wave owns its staging slot) stated as the
   predicate EffOk.
-/

namespace RocWmma

/-- Storage order of a matrix, as in rocWMMA (row_major / col_major). -/
inductive Layout where
  | row_major : Layout
  | col_major : Layout
deriving DecidableEq

/-- Modelled from the spec: MappingUtil dataOffset / dataAddress (spec 4.1) --
layout-aware linear offset of coordinate (r, c) under leading dimension ld:
row-major gives r*ld + c, column-major gives c*ld + r.  This agrees with the
rowMjr / colMjr indexers of gemm_cpu_h in src/samples/common.hpp. -/
def dataOffset (lay : Layout) (ld r c : ℕ) : ℕ :=
  match lay with
  | .row_major => r * ld + c
  | .col_major => c * ld + r

/-
Element type of the embedded matrices.  The kernel and the reference GEMM
only add and multiply elements and compare scalars with zero, so the
embedding is generic over a commutative semiring with decidable equality;
witnesses and counterexamples instantiate it at concrete types.
-/
variable {α : Type} [CommSemiring α] [DecidableEq α]

/-- A linear memory buffer of exactly embedded elements. -/
abbrev Mem (α : Type) : Type := ℕ → α

/-- Write one row of N values into memory, element j going to address g j
(increasing j, last write wins). -/
def writeRow (N : ℕ) (g : ℕ → ℕ) (w : ℕ → α) (mem : Mem α) : Mem α :=
  (List.range N).foldl (fun mm j => Function.update mm (g j) (w j)) mem

/-- Write an M x N grid of values into memory, element (i, j) going to
address addr i j, rows in increasing i, then increasing j (last write wins).
Both the reference GEMM's output loop and the fragment store write this way. -/
def writeGrid (M N : ℕ) (addr : ℕ → ℕ → ℕ) (v : ℕ → ℕ → α) (mem : Mem α) : Mem α :=
  (List.range M).foldl (fun mm i => writeRow N (addr i) (v i) mm) mem

/-- Memory transformers that write data-independent values: at every
address the transformer either writes the same value whatever the prior
contents, or leaves the prior contents in place. -/
def WriteStable (F : Mem α → Mem α) : Prop :=
  ∀ d1 d2 ad, F d1 ad = F d2 ad ∨ (F d1 ad = d1 ad ∧ F d2 ad = d2 ad)

/-- Value the reference GEMM stores at output position (i, j)
(src/samples/common.hpp, gemm_cpu_h body): alpha * sum_h a[i,h]*b[h,j] + beta * c[i,j]. -/
def gemmRefVal (k : ℕ) (layA layB layC : Layout) (a b c : Mem α)
    (lda ldb ldc : ℕ) (alpha beta : α) (i j : ℕ) : α :=
  alpha * (Finset.range k).sum (fun h => a (dataOffset layA lda i h) * b (dataOffset layB ldb h j))
    + beta * c (dataOffset layC ldc i j)

/-- Host reference GEMM gemm_cpu_h (src/samples/common.hpp lines 475-513):
for every (i, j) in m x n, write alpha * (A.B)(i,j) + beta * C(i,j) into d
at the layout-aware address of (i, j). -/
def gemm_cpu_h (m n k : ℕ) (layA layB layC layD : Layout) (a b c d : Mem α)
    (lda ldb ldc ldd : ℕ) (alpha beta : α) : Mem α :=
  writeGrid m n (fun i j => dataOffset layD ldd i j)
    (gemmRefVal k layA layB layC a b c lda ldb ldc alpha beta) d

/-- Membership of an address in the shared-memory register-file block that
starts at slot, has fragSize rows of width used elements each, and leading
dimension ldLds (row-major, as set up in part_001 lines 80-86). -/
def inSlot (slot ldLds fragSize width ad : ℕ) : Prop :=
  slot ≤ ad ∧ (ad - slot) / ldLds < fragSize ∧ (ad - slot) % ldLds < width

instance (slot ldLds fragSize width ad : ℕ) :
    Decidable (inSlot slot ldLds fragSize width ad) := by
  unfold inSlot
  infer_instance

/-- Modelled from the spec: wmma store_matrix_sync of a register_file
fragment (spec 4.2): element n of the flat per-wave register file goes to
address slot + (n / width) * ldLds + n % width (row-major register file,
part_001 lines 76-86, 133-134). -/
def ldsStore {α : Type} (slot ldLds fragSize width : ℕ)
    (v : ℕ → α) (mem : ℕ → α) : ℕ → α :=
  fun ad =>
    if inSlot slot ldLds fragSize width ad then
      v ((ad - slot) / ldLds * width + (ad - slot) % ldLds)
    else mem ad

/-- Modelled from the spec: wmma load_matrix_sync of a register_file
fragment: the inverse addressing of ldsStore. -/
def ldsLoad {α : Type} (slot ldLds width : ℕ) (mem : ℕ → α) : ℕ → α :=
  fun n => mem (slot + n / width * ldLds + n % width)

/-- Address of flat register-file element n inside the slot at base slot. -/
def slotAddr (slot ldLds width n : ℕ) : ℕ :=
  slot + n / width * ldLds + n % width

/-- Modelled from the spec: the register-file reinterpretation of a native
fragment (spec section 3: two layout-compatible views of the same elements,
equal element counts).  The concrete lane distribution lives in the WMMA
library outside the shown sources; we use the canonical row-major flattening
of the tile, n = i * cols + h. -/
def flatOf (cols : ℕ) (frag : ℕ → ℕ → α) : ℕ → α :=
  fun n => frag (n / cols) (n % cols)

/-- Modelled from the spec: the native (tile-shaped) view of a flat
register-file fragment; inverse of flatOf. -/
def tileOf (cols : ℕ) (v : ℕ → α) : ℕ → ℕ → α :=
  fun i h => v (i * cols + h)

/-- Modelled from the spec: wmma load_matrix_sync from global memory
(spec 4.2): tile element (i, h) is read from addr + dataOffset lay ld i h. -/
def loadGlobal (lay : Layout) (ld addr : ℕ) (buf : Mem α) : ℕ → ℕ → α :=
  fun i h => buf (addr + dataOffset lay ld i h)

/-- Modelled from the spec: wmma mma_sync (spec 4.2): per-element fused
multiply-accumulate acc(i,j) + sum over the BlockK reduction slice. -/
def mmaStep (BlockK : ℕ) (fA fB acc : ℕ → ℕ → α) : ℕ → ℕ → α :=
  fun i j => acc i j + (Finset.range BlockK).sum (fun h => fA i h * fB h j)

/-- Context of the steady-state loop of mmaSyncLds (part_001 lines 136-170):
everything the loop body reads but never writes. -/
structure LoopCtx (α : Type) where
  a : Mem α
  b : Mem α
  lda : ℕ
  ldb : ℕ
  layA : Layout
  layB : Layout
  BlockK : ℕ
  BlockN : ℕ
  width : ℕ
  ldLds : ℕ
  slotA : ℕ
  slotB : ℕ
  fragSizeA : ℕ
  fragSizeB : ℕ
  incrA : ℕ
  incrB : ℕ
  endA : ℕ
  eff : ℕ → (ℕ → α) → (ℕ → α)

/-- Mutable state of the steady-state loop: the two stepping addresses, the
shared staging buffer, the wave's fragment registers, the accumulator, and
two ghost counters (executed iterations and issued mma_sync operations). -/
structure LoopSt (α : Type) where
  addrA : ℕ
  addrB : ℕ
  lds : ℕ → α
  fragA : ℕ → ℕ → α
  fragB : ℕ → ℕ → α
  fragAcc : ℕ → ℕ → α
  iters : ℕ
  mmas : ℕ

/-- One iteration of the steady-state loop (part_001 lines 147-170):
barrier (modelled as the interference function eff), read the staged A/B
fragments back from shared memory, prefetch the next K-slice from global
memory, issue the multiply-accumulate for the current slice, overwrite the
staging slots with the prefetched fragments, advance both addresses. -/
def loopBody (cx : LoopCtx α) (st : LoopSt α) : LoopSt α :=
  let lds1 := cx.eff st.iters st.lds
  let fA := tileOf cx.BlockK (ldsLoad cx.slotA cx.ldLds cx.width lds1)
  let fB := tileOf cx.BlockN (ldsLoad cx.slotB cx.ldLds cx.width lds1)
  let fANext := loadGlobal cx.layA cx.lda st.addrA cx.a
  let fBNext := loadGlobal cx.layB cx.ldb st.addrB cx.b
  let acc := mmaStep cx.BlockK fA fB st.fragAcc
  let lds2 := ldsStore cx.slotB cx.ldLds cx.fragSizeB cx.width (flatOf cx.BlockN fBNext)
      (ldsStore cx.slotA cx.ldLds cx.fragSizeA cx.width (flatOf cx.BlockK fANext) lds1)
  { addrA := st.addrA + cx.incrA
    addrB := st.addrB + cx.incrB
    lds := lds2
    fragA := fA
    fragB := fB
    fragAcc := acc
    iters := st.iters + 1
    mmas := st.mmas + 1 }

/-- Fuel-bounded unfolding of the while loop of part_001 line 147
(while addrA is not endA, run the body).  Fuel only bounds the number of
iterations; the kernel supplies fuel k, which exceeds the k/BlockK - 1
iterations the loop actually runs whenever the eligibility guard passed. -/
def mmaLoop (cx : LoopCtx α) : ℕ → LoopSt α → LoopSt α
  | 0, st => st
  | fuel + 1, st =>
    if st.addrA = cx.endA then st else mmaLoop cx fuel (loopBody cx st)

/-- Compile-time configuration of one mmaSyncLds instantiation together with
the launch geometry of the executing wave: block shape, per-lane fragment
element counts, hardware wave width, the four layouts, workgroup wave grid,
this wave's coordinate in it, and the output tile coordinate this wave owns. -/
structure KCfg where
  BlockM : ℕ
  BlockN : ℕ
  BlockK : ℕ
  fragSizeA : ℕ
  fragSizeB : ℕ
  waveSize : ℕ
  layA : Layout
  layB : Layout
  layC : Layout
  layD : Layout
  wgDimX : ℕ
  wgDimY : ℕ
  waveX : ℕ
  waveY : ℕ
  tileRow : ℕ
  tileCol : ℕ

/-- Shared-memory leading dimension (part_001 line 121):
ldLds = registerFileWidth * workgroupDim.y. -/
def ldLdsOf (cfg : KCfg) : ℕ := cfg.waveSize * cfg.wgDimY

/-- Base of the B region of the shared staging buffer (part_001 lines
123-125): the A region starts at offset 0 and the B region right after it,
at workgroupDim.x * FragLdsA::size() * ldLds. -/
def baseLdsB (cfg : KCfg) : ℕ := cfg.wgDimX * cfg.fragSizeA * ldLdsOf cfg

/-- This wave's A staging slot (part_001 lines 127-130): the register-file
mapping's matrixCoord of the wave coordinate, addressed row-major with ldLds. -/
def slotAOf (cfg : KCfg) : ℕ :=
  dataOffset .row_major (ldLdsOf cfg) (cfg.waveX * cfg.fragSizeA) (cfg.waveY * cfg.waveSize)

/-- This wave's B staging slot (part_001 lines 128-131). -/
def slotBOf (cfg : KCfg) : ℕ :=
  baseLdsB cfg +
    dataOffset .row_major (ldLdsOf cfg) (cfg.waveX * cfg.fragSizeB) (cfg.waveY * cfg.waveSize)

/-- Result of the accumulation phase of the kernel: the accumulator fragment
plus the ghost observations (loop iterations, mma_sync count, final and
target value of the stepping A address). -/
structure AccRes (α : Type) where
  acc : ℕ → ℕ → α
  iters : ℕ
  mmas : ℕ
  addrAEnd : ℕ
  endA : ℕ

/-- Trace of one wave's execution of mmaSyncLds: the output buffer plus the
ghost observations of the accumulation phase. -/
structure KTrace (α : Type) where
  dOut : Mem α
  acc : ℕ → ℕ → α
  iters : ℕ
  mmas : ℕ
  addrAEnd : ℕ
  endA : ℕ

/-- Starting address of this wave's A walk (part_001 line 106):
dataCoord(a, lda, (matrixCoordC.row, 0)), as an offset into a. -/
def addrA0Of (cfg : KCfg) (lda : ℕ) : ℕ :=
  dataOffset cfg.layA lda (cfg.tileRow * cfg.BlockM) 0

/-- Starting address of this wave's B walk (part_001 line 107). -/
def addrB0Of (cfg : KCfg) (ldb : ℕ) : ℕ :=
  dataOffset cfg.layB ldb 0 (cfg.tileCol * cfg.BlockN)

/-- Per-iteration A address increment (part_001 line 139):
dataOffset(lda, (0, BlockK)). -/
def incrAOf (cfg : KCfg) (lda : ℕ) : ℕ := dataOffset cfg.layA lda 0 cfg.BlockK

/-- Per-iteration B address increment (part_001 line 140). -/
def incrBOf (cfg : KCfg) (ldb : ℕ) : ℕ := dataOffset cfg.layB ldb cfg.BlockK 0

/-- Loop exit address (part_001 line 142): endA = addrA + incrA * (k / BlockK). -/
def endAOf (cfg : KCfg) (k lda : ℕ) : ℕ :=
  addrA0Of cfg lda + incrAOf cfg lda * (k / cfg.BlockK)

/-- Staging buffer after the priming stores (part_001 lines 110-134): the
first A and B blocks are loaded from global memory and re-staged into this
wave's slots through the register-file reinterpretation. -/
def ldsPrimed (cfg : KCfg) (a b : Mem α) (lda ldb : ℕ) (lds0 : ℕ → α) : ℕ → α :=
  ldsStore (slotBOf cfg) (ldLdsOf cfg) cfg.fragSizeB cfg.waveSize
    (flatOf cfg.BlockN (loadGlobal cfg.layB ldb (addrB0Of cfg ldb) b))
    (ldsStore (slotAOf cfg) (ldLdsOf cfg) cfg.fragSizeA cfg.waveSize
      (flatOf cfg.BlockK (loadGlobal cfg.layA lda (addrA0Of cfg lda) a)) lds0)

/-- The loop context assembled by the kernel body. -/
def loopCtxOf (cfg : KCfg) (k : ℕ) (a b : Mem α) (lda ldb : ℕ)
    (eff : ℕ → (ℕ → α) → (ℕ → α)) : LoopCtx α :=
  { a := a, b := b, lda := lda, ldb := ldb
    layA := cfg.layA, layB := cfg.layB
    BlockK := cfg.BlockK, BlockN := cfg.BlockN
    width := cfg.waveSize, ldLds := ldLdsOf cfg
    slotA := slotAOf cfg, slotB := slotBOf cfg
    fragSizeA := cfg.fragSizeA, fragSizeB := cfg.fragSizeB
    incrA := incrAOf cfg lda, incrB := incrBOf cfg ldb
    endA := endAOf cfg k lda, eff := eff }

/-- Loop state right before the first loop-condition test (part_001 lines
144-145: both addresses already advanced once past the primed block). -/
def loopSt0Of (cfg : KCfg) (a b : Mem α) (lda ldb : ℕ) (lds0 : ℕ → α) : LoopSt α :=
  { addrA := addrA0Of cfg lda + incrAOf cfg lda
    addrB := addrB0Of cfg ldb + incrBOf cfg ldb
    lds := ldsPrimed cfg a b lda ldb lds0
    fragA := loadGlobal cfg.layA lda (addrA0Of cfg lda) a
    fragB := loadGlobal cfg.layB ldb (addrB0Of cfg ldb) b
    fragAcc := fun _ _ => 0, iters := 0, mmas := 0 }

/-- The whole alpha-guarded accumulation phase (part_001 lines 103-175):
prime and stage the first block, run the steady-state loop, then the drain
reads the last staged block back and issues the final multiply-accumulate. -/
def accPhase (cfg : KCfg) (k : ℕ) (a b : Mem α) (lda ldb : ℕ)
    (lds0 : ℕ → α) (eff : ℕ → (ℕ → α) → (ℕ → α)) : AccRes α :=
  let stE := mmaLoop (loopCtxOf cfg k a b lda ldb eff) k (loopSt0Of cfg a b lda ldb lds0)
  let fA := tileOf cfg.BlockK (ldsLoad (slotAOf cfg) (ldLdsOf cfg) cfg.waveSize stE.lds)
  let fB := tileOf cfg.BlockN (ldsLoad (slotBOf cfg) (ldLdsOf cfg) cfg.waveSize stE.lds)
  { acc := mmaStep cfg.BlockK fA fB stE.fragAcc
    iters := stE.iters, mmas := stE.mmas + 1
    addrAEnd := stE.addrA, endA := endAOf cfg k lda }

/-- Epilogue of the kernel (part_001 lines 178-207): zero-fill the C
fragment, load the C tile if beta is nonzero, recombine elementwise as
OutputT(alpha * ComputeT(acc) + beta * ComputeT(c)), and store the tile to
d under the D layout. -/
def epilogue (cfg : KCfg) (c d : Mem α) (ldc ldd : ℕ) (alpha beta : α)
    (acc : ℕ → ℕ → α) : Mem α :=
  let coordRow := cfg.tileRow * cfg.BlockM
  let coordCol := cfg.tileCol * cfg.BlockN
  let fragC : ℕ → ℕ → α :=
    if beta ≠ 0 then loadGlobal cfg.layC ldc (dataOffset cfg.layC ldc coordRow coordCol) c
    else fun _ _ => 0
  let fragD : ℕ → ℕ → α := fun i j => alpha * acc i j + beta * fragC i j
  let addrD := dataOffset cfg.layD ldd coordRow coordCol
  writeGrid cfg.BlockM cfg.BlockN (fun i j => addrD + dataOffset cfg.layD ldd i j) fragD d

/-- Result of the accumulation phase including the zero-skip shortcut
(part_001 lines 98-103): when alpha is exactly zero the whole phase is
skipped and the accumulator fragment stays zero-filled. -/
def accResOf (cfg : KCfg) (k : ℕ) (a b : Mem α) (lda ldb : ℕ) (alpha : α)
    (lds0 : ℕ → α) (eff : ℕ → (ℕ → α) → (ℕ → α)) : AccRes α :=
  if alpha ≠ 0 then accPhase cfg k a b lda ldb lds0 eff
  else { acc := fun _ _ => 0, iters := 0, mmas := 0, addrAEnd := 0, endA := 0 }

/-- Per-wave execution of the device kernel mmaSyncLds (part_001 lines
51-209), with ghost observations.  lds0 is the (uninitialized) content of
the shared staging buffer, eff the interference other waves may exert on it
at each workgroup barrier.  Structure: bounds-and-eligibility guard
(line 96), the alpha-guarded accumulation phase (lines 98-176), then the
epilogue (lines 178-207). -/
def mmaSyncLdsT (cfg : KCfg) (m n k : ℕ) (a b c d : Mem α)
    (lda ldb ldc ldd : ℕ) (alpha beta : α)
    (lds0 : ℕ → α) (eff : ℕ → (ℕ → α) → (ℕ → α)) : KTrace α :=
  if cfg.tileRow * cfg.BlockM < m ∧ cfg.tileCol * cfg.BlockN < n ∧ cfg.BlockK < k then
    { dOut := epilogue cfg c d ldc ldd alpha beta (accResOf cfg k a b lda ldb alpha lds0 eff).acc
      acc := (accResOf cfg k a b lda ldb alpha lds0 eff).acc
      iters := (accResOf cfg k a b lda ldb alpha lds0 eff).iters
      mmas := (accResOf cfg k a b lda ldb alpha lds0 eff).mmas
      addrAEnd := (accResOf cfg k a b lda ldb alpha lds0 eff).addrAEnd
      endA := (accResOf cfg k a b lda ldb alpha lds0 eff).endA }
  else
    { dOut := d, acc := fun _ _ => 0, iters := 0, mmas := 0, addrAEnd := 0, endA := 0 }

/-- Output buffer of one wave's execution of mmaSyncLds. -/
def mmaSyncLds (cfg : KCfg) (m n k : ℕ) (a b c d : Mem α)
    (lda ldb ldc ldd : ℕ) (alpha beta : α)
    (lds0 : ℕ → α) (eff : ℕ → (ℕ → α) → (ℕ → α)) : Mem α :=
  (mmaSyncLdsT cfg m n k a b c d lda ldb ldc ldd alpha beta lds0 eff).dOut

/-- Discipline of the workgroup barrier interference: other waves never
touch this wave's A or B staging slot (spec section 3, fourth invariant). -/
def EffOk (cfg : KCfg) (eff : ℕ → (ℕ → α) → (ℕ → α)) : Prop :=
  ∀ t mem ad,
    (inSlot (slotAOf cfg) (ldLdsOf cfg) cfg.fragSizeA cfg.waveSize ad ∨
      inSlot (slotBOf cfg) (ldLdsOf cfg) cfg.fragSizeB cfg.waveSize ad) →
    eff t mem ad = mem ad

/-- One wave of a kernel launch: its configuration, its view of the freshly
reserved staging buffer, and the barrier interference it observes. -/
structure WaveRun (α : Type) where
  cfg : KCfg
  lds0 : ℕ → α
  eff : ℕ → (ℕ → α) → (ℕ → α)

/-- A full kernel launch: every wave of the grid runs mmaSyncLds over the
same problem, each writing its own output tile into d. -/
def launch (ws : List (WaveRun α)) (m n k : ℕ) (a b c : Mem α)
    (lda ldb ldc ldd : ℕ) (alpha beta : α) (d : Mem α) : Mem α :=
  ws.foldl
    (fun dm w => mmaSyncLds w.cfg m n k a b c dm lda ldb ldc ldd alpha beta w.lds0 w.eff)
    d

/-- Build-time static assertions at the head of mmaSyncLds (part_001 lines
88-91), verbatim with their hard-coded width 64: FragA::size() * 64 ==
BlockM * BlockK, FragLdsA::size() == FragA::size(), and symmetrically for B. -/
def mmaSyncLdsAsserts (BlockM BlockN BlockK fragA fragLdsA fragB fragLdsB : ℕ) : Prop :=
  fragA * 64 = BlockM * BlockK ∧ fragLdsA = fragA ∧
    fragB * 64 = BlockK * BlockN ∧ fragLdsB = fragB

instance (BlockM BlockN BlockK fragA fragLdsA fragB fragLdsB : ℕ) :
    Decidable (mmaSyncLdsAsserts BlockM BlockN BlockK fragA fragLdsA fragB fragLdsB) := by
  unfold mmaSyncLdsAsserts
  infer_instance

/-- Modelled from the spec: the section 3 fragment-size invariant with the
hardware group width as a parameter -- elements(FragmentA) *
hardwareGroupWidth == BlockRows * BlockK (symmetrically for B), and each
register-file view has the same element count as its native fragment. -/
def specFragInvariant (hardwareGroupWidth BlockM BlockN BlockK fragA fragLdsA fragB fragLdsB : ℕ) :
    Prop :=
  fragA * hardwareGroupWidth = BlockM * BlockK ∧ fragLdsA = fragA ∧
    fragB * hardwareGroupWidth = BlockK * BlockN ∧ fragLdsB = fragB

/-- Type of the compiled kernel entry point. -/
def KernelFun (α : Type) : Type :=
  KCfg → ℕ → ℕ → ℕ → Mem α → Mem α → Mem α → Mem α → ℕ → ℕ → ℕ → ℕ → α → α →
    (ℕ → α) → (ℕ → (ℕ → α) → (ℕ → α)) → Mem α

/-- Compile-time instantiation gate: a kernel object exists exactly when the
static assertions hold; a violating configuration fails to build and no
runtime entry point is produced. -/
def mmaSyncLdsInstance (BlockM BlockN BlockK fragSizeA fragSizeB : ℕ) : Option (KernelFun α) :=
  if mmaSyncLdsAsserts BlockM BlockN BlockK fragSizeA fragSizeA fragSizeB fragSizeB then
    some mmaSyncLds
  else
    none

/-- Model of an IEEE double for the validation comparator: an exact finite
value, a signed infinity, or NaN.  Finite arithmetic is exact (rounding does
not matter for the control-flow properties claimed of compareEqual). -/
inductive FVal where
  | fin (q : ℚ) : FVal
  | inf : FVal
  | ninf : FVal
  | nan : FVal
deriving DecidableEq

/-- Absolute value (fabs). -/
def fabs : FVal → FVal
  | .fin q => .fin |q|
  | .inf => .inf
  | .ninf => .inf
  | .nan => .nan

/-- Subtraction with IEEE special-value rules (inf - inf is NaN). -/
def fsub : FVal → FVal → FVal
  | .nan, _ => .nan
  | _, .nan => .nan
  | .fin x, .fin y => .fin (x - y)
  | .fin _, .inf => .ninf
  | .fin _, .ninf => .inf
  | .inf, .fin _ => .inf
  | .inf, .inf => .nan
  | .inf, .ninf => .inf
  | .ninf, .fin _ => .ninf
  | .ninf, .inf => .ninf
  | .ninf, .ninf => .nan

/-- Addition with IEEE special-value rules (inf + -inf is NaN). -/
def fadd : FVal → FVal → FVal
  | .nan, _ => .nan
  | _, .nan => .nan
  | .fin x, .fin y => .fin (x + y)
  | .fin _, .inf => .inf
  | .fin _, .ninf => .ninf
  | .inf, .fin _ => .inf
  | .inf, .inf => .inf
  | .inf, .ninf => .nan
  | .ninf, .fin _ => .ninf
  | .ninf, .inf => .nan
  | .ninf, .ninf => .ninf

/-- Division with IEEE special-value rules (0/0 and inf/inf are NaN,
x/0 is a signed infinity for finite nonzero x). -/
def fdiv : FVal → FVal → FVal
  | .nan, _ => .nan
  | _, .nan => .nan
  | .fin x, .fin y =>
    if y = 0 then (if x = 0 then .nan else if 0 < x then .inf else .ninf)
    else .fin (x / y)
  | .fin _, .inf => .fin 0
  | .fin _, .ninf => .fin 0
  | .inf, .fin y => if y < 0 then .ninf else .inf
  | .inf, .inf => .nan
  | .inf, .ninf => .nan
  | .ninf, .fin y => if y < 0 then .inf else .ninf
  | .ninf, .inf => .nan
  | .ninf, .ninf => .nan

/-- Strict less-than; every comparison with NaN is false. -/
def flt : FVal → FVal → Bool
  | .nan, _ => false
  | _, .nan => false
  | .fin x, .fin y => decide (x < y)
  | .fin _, .inf => true
  | .fin _, .ninf => false
  | .inf, _ => false
  | .ninf, .ninf => false
  | .ninf, _ => true

/-- std::isinf. -/
def fisinf : FVal → Bool
  | .inf => true
  | .ninf => true
  | _ => false

/-- std::isnan. -/
def fisnan : FVal → Bool
  | .nan => true
  | _ => false

/-- Loop state of compareEqual (src/samples/common.hpp lines 516-587):
the running maximum relative error and the two sticky abnormality flags. -/
structure CmpSt where
  maxRel : FVal
  isInf : Bool
  isNaN : Bool
deriving DecidableEq

/-- Body of one comparison iteration of compareEqual:
numerator = fabs(a[i] - b[i]), divisor = fabs(a[i]) + fabs(b[i]) + 1.0; set
isInf when either is infinite, otherwise form the relative error, set isNaN
when it is NaN, otherwise fold it into the running maximum. -/
def ceStep (st : CmpSt) (av bv : FVal) : CmpSt :=
  let numerator := fabs (fsub av bv)
  let divisor := fadd (fadd (fabs av) (fabs bv)) (FVal.fin 1)
  if fisinf numerator || fisinf divisor then { st with isInf := true }
  else
    let rel := fdiv numerator divisor
    if fisnan rel then { st with isNaN := true }
    else if flt st.maxRel rel then { st with maxRel := rel } else st

/-- The comparison loop of compareEqual, with its early exit: once either
sticky flag is set, the remaining indices are skipped (the source assigns
i = size inside the loop). -/
def ceLoop (a b : ℕ → FVal) : List ℕ → CmpSt → CmpSt
  | [], st => st
  | i :: rest, st =>
    if st.isInf || st.isNaN then st
    else ceLoop a b rest (ceStep st (a i) (b i))

/-- Default tolerance of compareEqual (src/samples/common.hpp line 518). -/
def defaultTolerance : ℚ := 10

/-- Element-wise comparator compareEqual (src/samples/common.hpp lines
516-587): scan the size elements; report (false, inf) when the Inf flag was
raised, (false, NaN) when the NaN flag was raised, and otherwise pass
exactly when the maximum relative error is at most eps * tolerance.
eps stands for machine epsilon of the data type. -/
def compareEqual (a b : ℕ → FVal) (size : ℕ) (eps tolerance : ℚ) : Bool × FVal :=
  let st := ceLoop a b (List.range size) ⟨FVal.fin 0, false, false⟩
  if st.isInf then (false, FVal.inf)
  else if st.isNaN then (false, FVal.nan)
  else (!(flt (FVal.fin (eps * tolerance)) st.maxRel), st.maxRel)

/-- Exact per-element relative error of two finite values, as compareEqual
computes it: the difference magnitude over the sum of magnitudes plus one. -/
def relErrQ (x y : ℚ) : ℚ := |x - y| / (|x| + |y| + 1)

/-- Finiteness test of a model double. -/
def ffin : FVal → Bool
  | .fin _ => true
  | _ => false

/-- Finite part of a model double (0 on the special values). -/
def finPart : FVal → ℚ
  | .fin q => q
  | _ => 0

/-- Relative error of array element i, as a rational (meaningful when both
elements are finite). -/
def relErrOf (a b : ℕ → FVal) (i : ℕ) : ℚ := relErrQ (finPart (a i)) (finPart (b i))

/-- An element pair that raises compareEqual's Inf flag: its numerator
fabs(a-b) or divisor fabs(a)+fabs(b)+1 is infinite. -/
def pairInf (av bv : FVal) : Bool :=
  fisinf (fabs (fsub av bv)) || fisinf (fadd (fadd (fabs av) (fabs bv)) (FVal.fin 1))

/-- An element pair that raises compareEqual's NaN flag: it does not raise
the Inf flag but its relative error is NaN. -/
def pairNaN (av bv : FVal) : Bool :=
  !(pairInf av bv) &&
    fisnan (fdiv (fabs (fsub av bv)) (fadd (fadd (fabs av) (fabs bv)) (FVal.fin 1)))

/-- Invariant of compareEqual's scan after processing the index list idx
with neither flag raised: the running maximum is a nonnegative finite value
that bounds every processed relative error and is attained (or still the
initial 0). -/
def CmpInv (a b : ℕ → FVal) (idx : List ℕ) (st : CmpSt) : Prop :=
  st.isInf = false ∧ st.isNaN = false ∧
    ∃ M : ℚ, st.maxRel = .fin M ∧ 0 ≤ M ∧
      (∀ i ∈ idx, relErrOf a b i ≤ M) ∧ (M = 0 ∨ ∃ i ∈ idx, relErrOf a b i = M)

/-- Concrete legal configuration used by witnesses: 8x8x8 blocks, one
element per lane (1 * 64 = 8 * 8), a 2 x 2 wave grid, wave (1, 1), tile
(0, 0). -/
def cfgW : KCfg :=
  ⟨8, 8, 8, 1, 1, 64, .row_major, .col_major, .row_major, .row_major, 2, 2, 1, 1, 0, 0⟩

/-- Concrete legal single-wave configuration used by witnesses and
counterexamples: 8x8x8 blocks, one element per lane, a 1 x 1 wave grid. -/
def cfg1 : KCfg :=
  ⟨8, 8, 8, 1, 1, 64, .row_major, .row_major, .row_major, .row_major, 1, 1, 0, 0, 0, 0⟩

/-- The no-interference barrier environment (other waves do nothing, or the
barrier is removed). -/
def noEff {α : Type} : ℕ → (ℕ → α) → (ℕ → α) := fun _ mem => mem

/-- Counting invariant of the steady-state loop after t executed
iterations: both stepping addresses have advanced t + 1 increments past
their starting values (one in the prime, one per iteration) and the ghost
counters read t. -/
def InvCnt (cx : LoopCtx α) (addrA0 addrB0 t : ℕ) (st : LoopSt α) : Prop :=
  st.addrA = addrA0 + cx.incrA * (t + 1) ∧ st.addrB = addrB0 + cx.incrB * (t + 1) ∧
    st.iters = t ∧ st.mmas = t

/-- K-slice number s of the A operand, as the kernel's global load reads it
(tile element (i, h) at the slice's base address plus the layout offset). -/
def sliceA (cfg : KCfg) (a : Mem α) (lda s : ℕ) : ℕ → ℕ → α :=
  loadGlobal cfg.layA lda (addrA0Of cfg lda + s * incrAOf cfg lda) a

/-- K-slice number s of the B operand. -/
def sliceB (cfg : KCfg) (b : Mem α) (ldb s : ℕ) : ℕ → ℕ → α :=
  loadGlobal cfg.layB ldb (addrB0Of cfg ldb + s * incrBOf cfg ldb) b

/-- Intended accumulator contents after consuming t K-slices: the partial
dot products of the first t * BlockK reduction steps. -/
def accAt (cfg : KCfg) (a b : Mem α) (lda ldb t : ℕ) : ℕ → ℕ → α :=
  fun i j =>
    (Finset.range t).sum fun s =>
      (Finset.range cfg.BlockK).sum fun h => sliceA cfg a lda s i h * sliceB cfg b ldb s h j

/-- Full functional invariant of the steady-state loop after t executed
iterations: the counting invariant, the accumulator holding the first t
slices' partial products on the tile, and this wave's staging slots holding
the flattened slice t of A and B. -/
def LoopInv (cfg : KCfg) (a b : Mem α) (lda ldb t : ℕ) (st : LoopSt α) : Prop :=
  st.addrA = addrA0Of cfg lda + incrAOf cfg lda * (t + 1) ∧
    st.addrB = addrB0Of cfg ldb + incrBOf cfg ldb * (t + 1) ∧
    st.iters = t ∧ st.mmas = t ∧
    (∀ i j, i < cfg.BlockM → j < cfg.BlockN → st.fragAcc i j = accAt cfg a b lda ldb t i j) ∧
    (∀ n, n < cfg.fragSizeA * cfg.waveSize →
      st.lds (slotAddr (slotAOf cfg) (ldLdsOf cfg) cfg.waveSize n) =
        flatOf cfg.BlockK (sliceA cfg a lda t) n) ∧
    (∀ n, n < cfg.fragSizeB * cfg.waveSize →
      st.lds (slotAddr (slotBOf cfg) (ldLdsOf cfg) cfg.waveSize n) =
        flatOf cfg.BlockN (sliceB cfg b ldb t) n)

/-- Agreement of two staging-buffer contents on this wave's A and B slots
(the only addresses the wave ever reads back). -/
def LdsAgree (cfg : KCfg) (l1 l2 : ℕ → α) : Prop :=
  ∀ ad,
    (inSlot (slotAOf cfg) (ldLdsOf cfg) cfg.fragSizeA cfg.waveSize ad ∨
      inSlot (slotBOf cfg) (ldLdsOf cfg) cfg.fragSizeB cfg.waveSize ad) →
    l1 ad = l2 ad

/-- Correspondence between the loop states of two kernel runs that differ
only in the barrier interference they observe: everything the remaining
computation can depend on agrees (addresses, counters, the accumulator on
the tile, and the staging buffer on this wave's own slots). -/
def StRel (cfg : KCfg) (st1 st2 : LoopSt α) : Prop :=
  st1.addrA = st2.addrA ∧ st1.addrB = st2.addrB ∧ st1.iters = st2.iters ∧
    st1.mmas = st2.mmas ∧
    (∀ i j, i < cfg.BlockM → j < cfg.BlockN → st1.fragAcc i j = st2.fragAcc i j) ∧
    LdsAgree cfg st1.lds st2.lds

lemma dataOffset_add (lay : Layout) (ld r1 c1 r2 c2 : ℕ) :
    dataOffset lay ld r1 c1 + dataOffset lay ld r2 c2 = dataOffset lay ld (r1 + r2) (c1 + c2) := by
  cases lay <;> simp [dataOffset] <;> ring

lemma dataOffset_mul (lay : Layout) (ld s r c : ℕ) :
    s * dataOffset lay ld r c = dataOffset lay ld (s * r) (s * c) := by
  cases lay <;> simp [dataOffset] <;> ring

lemma decompDiv (L q r : ℕ) (hr : r < L) :
    (q * L + r) / L = q ∧ (q * L + r) % L = r := by
  have hL : 0 < L := lt_of_le_of_lt (Nat.zero_le r) hr
  constructor
  · rw [Nat.mul_comm q L, Nat.mul_add_div hL, Nat.div_eq_of_lt hr, Nat.add_zero]
  · rw [Nat.mul_comm q L, Nat.mul_add_mod, Nat.mod_eq_of_lt hr]

lemma slotAddr_inSlot (slot ldLds fragSize width n : ℕ)
    (hwl : width ≤ ldLds) (hn : n < fragSize * width) :
    inSlot slot ldLds fragSize width (slotAddr slot ldLds width n) := by
  have hw : 0 < width := by
    rcases Nat.eq_zero_or_pos width with h0 | h0
    · rw [h0, Nat.mul_zero] at hn
      exact absurd hn (Nat.not_lt_zero n)
    · exact h0
  have hmod : n % width < width := Nat.mod_lt _ hw
  have hmodL : n % width < ldLds := lt_of_lt_of_le hmod hwl
  have hn2 : n < width * fragSize := by rw [Nat.mul_comm width fragSize]; exact hn
  have hdiv : n / width < fragSize := Nat.div_lt_of_lt_mul hn2
  have hdelta : slotAddr slot ldLds width n - slot = n / width * ldLds + n % width := by
    unfold slotAddr
    omega
  refine ⟨by unfold slotAddr; omega, ?_, ?_⟩
  · rw [hdelta, (decompDiv ldLds (n / width) (n % width) hmodL).1]
    exact hdiv
  · rw [hdelta, (decompDiv ldLds (n / width) (n % width) hmodL).2]
    exact hmod

lemma ldsStore_hit {α : Type} (slot ldLds fragSize width : ℕ) (v : ℕ → α) (mem : ℕ → α)
    (ad : ℕ) (h : inSlot slot ldLds fragSize width ad) :
    ldsStore slot ldLds fragSize width v mem ad =
      v ((ad - slot) / ldLds * width + (ad - slot) % ldLds) := by
  unfold ldsStore
  exact if_pos h

lemma ldsStore_miss {α : Type} (slot ldLds fragSize width : ℕ) (v : ℕ → α) (mem : ℕ → α)
    (ad : ℕ) (h : ¬ inSlot slot ldLds fragSize width ad) :
    ldsStore slot ldLds fragSize width v mem ad = mem ad := by
  unfold ldsStore
  exact if_neg h

lemma slotAddr_decode (slot ldLds width n : ℕ) (hwl : width ≤ ldLds) (hw : 0 < width) :
    (slotAddr slot ldLds width n - slot) / ldLds * width +
      (slotAddr slot ldLds width n - slot) % ldLds = n := by
  have hmod : n % width < width := Nat.mod_lt _ hw
  have hmodL : n % width < ldLds := lt_of_lt_of_le hmod hwl
  have hdelta : slotAddr slot ldLds width n - slot = n / width * ldLds + n % width := by
    unfold slotAddr
    omega
  rw [hdelta, (decompDiv ldLds (n / width) (n % width) hmodL).1,
    (decompDiv ldLds (n / width) (n % width) hmodL).2,
    Nat.mul_comm (n / width) width, Nat.div_add_mod]

lemma ldsLoad_ldsStore {α : Type} (slot ldLds fragSize width : ℕ) (v : ℕ → α) (mem : ℕ → α)
    (hwl : width ≤ ldLds) (n : ℕ) (hn : n < fragSize * width) :
    ldsLoad slot ldLds width (ldsStore slot ldLds fragSize width v mem) n = v n := by
  have hw : 0 < width := by
    rcases Nat.eq_zero_or_pos width with h0 | h0
    · rw [h0, Nat.mul_zero] at hn
      exact absurd hn (Nat.not_lt_zero n)
    · exact h0
  show ldsStore slot ldLds fragSize width v mem (slotAddr slot ldLds width n) = v n
  rw [ldsStore_hit _ _ _ _ _ _ _ (slotAddr_inSlot slot ldLds fragSize width n hwl hn),
    slotAddr_decode slot ldLds width n hwl hw]

lemma inSlot_region (base f L ws X Y wx wy : ℕ) (hwx : wx < X) (hwy : wy < Y)
    (hL : L = ws * Y) (ad : ℕ)
    (h : inSlot (base + wx * f * L + wy * ws) L f ws ad) :
    base ≤ ad ∧ ad < base + X * f * L := by
  obtain ⟨h1, h2, h3⟩ := h
  set slot := base + wx * f * L + wy * ws with hslot
  set δ := ad - slot with hdel
  have had : ad = slot + (δ / L * L + δ % L) := by
    have hdm : L * (δ / L) + δ % L = δ := Nat.div_add_mod δ L
    have hcm : L * (δ / L) = δ / L * L := Nat.mul_comm L (δ / L)
    omega
  have hwsL : wy * ws + δ % L < L := by
    have e1 : wy * ws + δ % L < wy * ws + ws := by omega
    have e2 : wy * ws + ws = (wy + 1) * ws := by ring
    have e3 : (wy + 1) * ws ≤ Y * ws := mul_le_mul_right' (Nat.succ_le_of_lt hwy) ws
    have e4 : Y * ws = L := by rw [hL]; ring
    omega
  refine ⟨by omega, ?_⟩
  have e5 : ad < base + wx * f * L + δ / L * L + L := by omega
  have e6 : wx * f * L + δ / L * L + L = (wx * f + δ / L + 1) * L := by ring
  have e7 : wx * f + δ / L + 1 ≤ X * f := by
    have e8 : δ / L + 1 ≤ f := h2
    have e9 : (wx + 1) * f = wx * f + f := by ring
    have e10 : (wx + 1) * f ≤ X * f := mul_le_mul_right' (Nat.succ_le_of_lt hwx) f
    omega
  have e11 : (wx * f + δ / L + 1) * L ≤ X * f * L := mul_le_mul_right' e7 L
  omega

lemma slotAOf_eq (cfg : KCfg) :
    slotAOf cfg = 0 + cfg.waveX * cfg.fragSizeA * ldLdsOf cfg + cfg.waveY * cfg.waveSize := by
  simp [slotAOf, dataOffset]

lemma slotBOf_eq (cfg : KCfg) :
    slotBOf cfg =
      baseLdsB cfg + cfg.waveX * cfg.fragSizeB * ldLdsOf cfg + cfg.waveY * cfg.waveSize := by
  simp [slotBOf, dataOffset]
  ring

lemma inSlotA_lt_baseB (cfg : KCfg) (hwx : cfg.waveX < cfg.wgDimX)
    (hwy : cfg.waveY < cfg.wgDimY) (ad : ℕ)
    (h : inSlot (slotAOf cfg) (ldLdsOf cfg) cfg.fragSizeA cfg.waveSize ad) :
    ad < baseLdsB cfg := by
  have := inSlot_region 0 cfg.fragSizeA (ldLdsOf cfg) cfg.waveSize cfg.wgDimX cfg.wgDimY
    cfg.waveX cfg.waveY hwx hwy rfl ad (by rw [← slotAOf_eq]; exact h)
  have hbase : baseLdsB cfg = cfg.wgDimX * cfg.fragSizeA * ldLdsOf cfg := rfl
  omega

lemma inSlotB_bounds (cfg : KCfg) (hwx : cfg.waveX < cfg.wgDimX)
    (hwy : cfg.waveY < cfg.wgDimY) (ad : ℕ)
    (h : inSlot (slotBOf cfg) (ldLdsOf cfg) cfg.fragSizeB cfg.waveSize ad) :
    baseLdsB cfg ≤ ad ∧ ad < baseLdsB cfg + cfg.wgDimX * cfg.fragSizeB * ldLdsOf cfg :=
  inSlot_region (baseLdsB cfg) cfg.fragSizeB (ldLdsOf cfg) cfg.waveSize cfg.wgDimX cfg.wgDimY
    cfg.waveX cfg.waveY hwx hwy rfl ad (by rw [← slotBOf_eq]; exact h)

lemma slotA_slotB_disjoint (cfg : KCfg) (hwx : cfg.waveX < cfg.wgDimX)
    (hwy : cfg.waveY < cfg.wgDimY) (ad : ℕ)
    (hA : inSlot (slotAOf cfg) (ldLdsOf cfg) cfg.fragSizeA cfg.waveSize ad) :
    ¬ inSlot (slotBOf cfg) (ldLdsOf cfg) cfg.fragSizeB cfg.waveSize ad := by
  intro hB
  have h1 := inSlotA_lt_baseB cfg hwx hwy ad hA
  have h2 := (inSlotB_bounds cfg hwx hwy ad hB).1
  omega

/-- C6: storing a fragment to the shared staging buffer through its
register-file reinterpretation and immediately reloading it through the same
reinterpretation yields the original fragment element values unchanged,
bit-exact, for every element type (the statement is polymorphic in the
element type and in the fragment contents). -/
theorem lds_roundtrip_bitexact {α : Type} (slot ldLds fragSize width : ℕ)
    (v : ℕ → α) (mem : ℕ → α) (hwl : width ≤ ldLds) (n : ℕ) (hn : n < fragSize * width) :
    ldsLoad slot ldLds width (ldsStore slot ldLds fragSize width v mem) n = v n :=
  ldsLoad_ldsStore slot ldLds fragSize width v mem hwl n hn

/-- Witness for C6 at a concrete slot, geometry and fragment. -/
theorem lds_roundtrip_bitexact_witness :
    ldsLoad 5 64 64 (ldsStore 5 64 2 64 (fun n => (n : ℚ)) (fun _ => 0)) 100 = (100 : ℚ) :=
  lds_roundtrip_bitexact 5 64 2 64 (fun n => (n : ℚ)) (fun _ => 0) (by decide) 100 (by decide)

/-- C7: the staging buffer's B region starts exactly at the end of the A
region (whose size is workgroupDim.x * FragLdsA::size() * ldLds elements,
with ldLds = registerFileWidth * workgroupDim.y); each wave's A slot lies in
the A region and its B slot in the B region, so the regions, and the two
slots, never overlap. -/
theorem staging_regions_disjoint (cfg : KCfg) (hwx : cfg.waveX < cfg.wgDimX)
    (hwy : cfg.waveY < cfg.wgDimY) :
    baseLdsB cfg = cfg.wgDimX * cfg.fragSizeA * ldLdsOf cfg ∧
    ldLdsOf cfg = cfg.waveSize * cfg.wgDimY ∧
    (∀ ad, inSlot (slotAOf cfg) (ldLdsOf cfg) cfg.fragSizeA cfg.waveSize ad →
      ad < baseLdsB cfg) ∧
    (∀ ad, inSlot (slotBOf cfg) (ldLdsOf cfg) cfg.fragSizeB cfg.waveSize ad →
      baseLdsB cfg ≤ ad ∧ ad < baseLdsB cfg + cfg.wgDimX * cfg.fragSizeB * ldLdsOf cfg) ∧
    (∀ ad, inSlot (slotAOf cfg) (ldLdsOf cfg) cfg.fragSizeA cfg.waveSize ad →
      ¬ inSlot (slotBOf cfg) (ldLdsOf cfg) cfg.fragSizeB cfg.waveSize ad) :=
  ⟨rfl, rfl, fun ad h => inSlotA_lt_baseB cfg hwx hwy ad h,
    fun ad h => inSlotB_bounds cfg hwx hwy ad h,
    fun ad h => slotA_slotB_disjoint cfg hwx hwy ad h⟩

/-- Witness for C7: in a 2 x 2 workgroup of 64-wide waves, wave (1, 1)'s A
slot base lies outside its B slot. -/
theorem staging_regions_disjoint_witness :
    ¬ inSlot (slotBOf cfgW) (ldLdsOf cfgW) cfgW.fragSizeB cfgW.waveSize (slotAOf cfgW) :=
  (staging_regions_disjoint cfgW (by decide) (by decide)).2.2.2.2 (slotAOf cfgW) (by decide)

/-- C8: the fragment-size invariant is exactly what the build-time static
assertions check, with the hardware group width hard-coded to 64, and a
configuration violating them has no compiled kernel instance at all (the
gate returns none), so the failure is a build-time configuration error and
never a runtime fault. -/
theorem static_asserts_enforce_invariant
    (BlockM BlockN BlockK fragA fragLdsA fragB fragLdsB fa fb : ℕ) :
    (mmaSyncLdsAsserts BlockM BlockN BlockK fragA fragLdsA fragB fragLdsB ↔
      specFragInvariant 64 BlockM BlockN BlockK fragA fragLdsA fragB fragLdsB) ∧
    (@mmaSyncLdsInstance α _ _ BlockM BlockN BlockK fa fb = none ↔
      ¬ mmaSyncLdsAsserts BlockM BlockN BlockK fa fa fb fb) ∧
    (mmaSyncLdsAsserts BlockM BlockN BlockK fa fa fb fb →
      @mmaSyncLdsInstance α _ _ BlockM BlockN BlockK fa fb = some mmaSyncLds) := by
  refine ⟨Iff.rfl, ?_, ?_⟩
  · unfold mmaSyncLdsInstance
    by_cases h : mmaSyncLdsAsserts BlockM BlockN BlockK fa fa fb fb
    · simp [h]
    · simp [h]
  · intro h
    unfold mmaSyncLdsInstance
    simp [h]

lemma writeRow_zero (g : ℕ → ℕ) (w : ℕ → α) (mem : Mem α) : writeRow 0 g w mem = mem := rfl

lemma writeRow_succ (N : ℕ) (g : ℕ → ℕ) (w : ℕ → α) (mem : Mem α) :
    writeRow (N + 1) g w mem = Function.update (writeRow N g w mem) (g N) (w N) := by
  unfold writeRow
  rw [List.range_succ, List.foldl_append]
  simp only [List.foldl_cons, List.foldl_nil]

lemma writeGrid_zero (N : ℕ) (addr : ℕ → ℕ → ℕ) (v : ℕ → ℕ → α) (mem : Mem α) :
    writeGrid 0 N addr v mem = mem := rfl

lemma writeGrid_succ (M N : ℕ) (addr : ℕ → ℕ → ℕ) (v : ℕ → ℕ → α) (mem : Mem α) :
    writeGrid (M + 1) N addr v mem = writeRow N (addr M) (v M) (writeGrid M N addr v mem) := by
  unfold writeGrid
  rw [List.range_succ, List.foldl_append]
  simp only [List.foldl_cons, List.foldl_nil]

lemma writeRow_miss (N : ℕ) (g : ℕ → ℕ) (w : ℕ → α) (mem : Mem α) (ad : ℕ)
    (h : ∀ j, j < N → g j ≠ ad) :
    writeRow N g w mem ad = mem ad := by
  induction N with
  | zero => rfl
  | succ N ih =>
    rw [writeRow_succ,
      Function.update_noteq (Ne.symm (h N (Nat.lt_succ_self N)))]
    exact ih (fun j hj => h j (Nat.lt_succ_of_lt hj))

lemma writeRow_hit (N : ℕ) (g : ℕ → ℕ) (w : ℕ → α) (mem : Mem α) (j : ℕ) (hj : j < N)
    (hinj : ∀ j2, j2 < N → g j2 = g j → j2 = j) :
    writeRow N g w mem (g j) = w j := by
  induction N with
  | zero => omega
  | succ N ih =>
    rw [writeRow_succ]
    by_cases hjN : j = N
    · subst hjN
      rw [Function.update_same]
    · have hg : g j ≠ g N := fun he => hjN (hinj N (Nat.lt_succ_self N) he.symm).symm
      rw [Function.update_noteq hg]
      exact ih (by omega) (fun j2 h2 he => hinj j2 (Nat.lt_succ_of_lt h2) he)

lemma writeGrid_miss (M N : ℕ) (addr : ℕ → ℕ → ℕ) (v : ℕ → ℕ → α) (mem : Mem α) (ad : ℕ)
    (h : ∀ i j, i < M → j < N → addr i j ≠ ad) :
    writeGrid M N addr v mem ad = mem ad := by
  induction M with
  | zero => rfl
  | succ M ih =>
    rw [writeGrid_succ,
      writeRow_miss N (addr M) (v M) _ ad (fun j hj => h M j (Nat.lt_succ_self M) hj)]
    exact ih (fun i j hi hj => h i j (Nat.lt_succ_of_lt hi) hj)

lemma writeGrid_hit (M N : ℕ) (addr : ℕ → ℕ → ℕ) (v : ℕ → ℕ → α) (mem : Mem α) (i j : ℕ)
    (hi : i < M) (hj : j < N)
    (hinj : ∀ i2 j2, i2 < M → j2 < N → addr i2 j2 = addr i j → i2 = i ∧ j2 = j) :
    writeGrid M N addr v mem (addr i j) = v i j := by
  induction M with
  | zero => omega
  | succ M ih =>
    rw [writeGrid_succ]
    by_cases hiM : i = M
    · subst hiM
      exact writeRow_hit N (addr i) (v i) _ j hj (fun j2 h2 he => (hinj i j2 hi h2 he).2)
    · have hrow : ∀ j2, j2 < N → addr M j2 ≠ addr i j := fun j2 h2 he =>
        hiM (hinj M j2 (Nat.lt_succ_self M) h2 he).1.symm
      rw [writeRow_miss N (addr M) (v M) _ _ hrow]
      exact ih (by omega) (fun i2 j2 h2 h3 he => hinj i2 j2 (Nat.lt_succ_of_lt h2) h3 he)

lemma writeRow_congr (N : ℕ) (g : ℕ → ℕ) (w w2 : ℕ → α) (mem : Mem α)
    (h : ∀ j, j < N → w j = w2 j) :
    writeRow N g w mem = writeRow N g w2 mem := by
  induction N with
  | zero => rfl
  | succ N ih =>
    rw [writeRow_succ, writeRow_succ, h N (Nat.lt_succ_self N),
      ih (fun j hj => h j (Nat.lt_succ_of_lt hj))]

lemma writeGrid_congr (M N : ℕ) (addr : ℕ → ℕ → ℕ) (v v2 : ℕ → ℕ → α) (mem : Mem α)
    (h : ∀ i j, i < M → j < N → v i j = v2 i j) :
    writeGrid M N addr v mem = writeGrid M N addr v2 mem := by
  induction M with
  | zero => rfl
  | succ M ih =>
    rw [writeGrid_succ, writeGrid_succ,
      writeRow_congr N (addr M) (v M) (v2 M) _ (fun j hj => h M j (Nat.lt_succ_self M) hj),
      ih (fun i j hi hj => h i j (Nat.lt_succ_of_lt hi) hj)]

lemma writeRow_stable (N : ℕ) (g : ℕ → ℕ) (w : ℕ → α) :
    WriteStable (fun mem => writeRow N g w mem) := by
  induction N with
  | zero =>
    intro d1 d2 ad
    right
    exact ⟨rfl, rfl⟩
  | succ N ih =>
    intro d1 d2 ad
    show writeRow (N + 1) g w d1 ad = writeRow (N + 1) g w d2 ad ∨
      (writeRow (N + 1) g w d1 ad = d1 ad ∧ writeRow (N + 1) g w d2 ad = d2 ad)
    rw [writeRow_succ, writeRow_succ]
    by_cases he : ad = g N
    · subst he
      left
      rw [Function.update_same, Function.update_same]
    · rw [Function.update_noteq he, Function.update_noteq he]
      exact ih d1 d2 ad

lemma writeGrid_stable (M N : ℕ) (addr : ℕ → ℕ → ℕ) (v : ℕ → ℕ → α) :
    WriteStable (fun mem => writeGrid M N addr v mem) := by
  induction M with
  | zero =>
    intro d1 d2 ad
    right
    exact ⟨rfl, rfl⟩
  | succ M ih =>
    intro d1 d2 ad
    show writeGrid (M + 1) N addr v d1 ad = writeGrid (M + 1) N addr v d2 ad ∨
      (writeGrid (M + 1) N addr v d1 ad = d1 ad ∧ writeGrid (M + 1) N addr v d2 ad = d2 ad)
    rw [writeGrid_succ, writeGrid_succ]
    rcases writeRow_stable N (addr M) (v M) (writeGrid M N addr v d1) (writeGrid M N addr v d2)
        ad with h | ⟨h1, h2⟩
    · left
      exact h
    · have h1b : writeRow N (addr M) (v M) (writeGrid M N addr v d1) ad =
        writeGrid M N addr v d1 ad := h1
      have h2b : writeRow N (addr M) (v M) (writeGrid M N addr v d2) ad =
        writeGrid M N addr v d2 ad := h2
      rw [h1b, h2b]
      exact ih d1 d2 ad

lemma accResOf_pos (cfg : KCfg) (k : ℕ) (a b : Mem α) (lda ldb : ℕ) (alpha : α)
    (lds0 : ℕ → α) (eff : ℕ → (ℕ → α) → (ℕ → α)) (ha : alpha ≠ 0) :
    accResOf cfg k a b lda ldb alpha lds0 eff = accPhase cfg k a b lda ldb lds0 eff := by
  unfold accResOf
  rw [if_pos ha]

lemma accResOf_zero (cfg : KCfg) (k : ℕ) (a b : Mem α) (lda ldb : ℕ)
    (lds0 : ℕ → α) (eff : ℕ → (ℕ → α) → (ℕ → α)) :
    accResOf cfg k a b lda ldb 0 lds0 eff =
      { acc := fun _ _ => 0, iters := 0, mmas := 0, addrAEnd := 0, endA := 0 } := by
  unfold accResOf
  rw [if_neg (by simp)]

lemma mmaSyncLdsT_neg (cfg : KCfg) (m n k : ℕ) (a b c d : Mem α)
    (lda ldb ldc ldd : ℕ) (alpha beta : α) (lds0 : ℕ → α)
    (eff : ℕ → (ℕ → α) → (ℕ → α))
    (h : ¬ (cfg.tileRow * cfg.BlockM < m ∧ cfg.tileCol * cfg.BlockN < n ∧ cfg.BlockK < k)) :
    mmaSyncLdsT cfg m n k a b c d lda ldb ldc ldd alpha beta lds0 eff =
      { dOut := d, acc := fun _ _ => 0, iters := 0, mmas := 0, addrAEnd := 0, endA := 0 } := by
  unfold mmaSyncLdsT
  rw [if_neg h]

lemma mmaSyncLdsT_pos (cfg : KCfg) (m n k : ℕ) (a b c d : Mem α)
    (lda ldb ldc ldd : ℕ) (alpha beta : α) (lds0 : ℕ → α)
    (eff : ℕ → (ℕ → α) → (ℕ → α))
    (h : cfg.tileRow * cfg.BlockM < m ∧ cfg.tileCol * cfg.BlockN < n ∧ cfg.BlockK < k) :
    mmaSyncLdsT cfg m n k a b c d lda ldb ldc ldd alpha beta lds0 eff =
      { dOut := epilogue cfg c d ldc ldd alpha beta (accResOf cfg k a b lda ldb alpha lds0 eff).acc
        acc := (accResOf cfg k a b lda ldb alpha lds0 eff).acc
        iters := (accResOf cfg k a b lda ldb alpha lds0 eff).iters
        mmas := (accResOf cfg k a b lda ldb alpha lds0 eff).mmas
        addrAEnd := (accResOf cfg k a b lda ldb alpha lds0 eff).addrAEnd
        endA := (accResOf cfg k a b lda ldb alpha lds0 eff).endA } := by
  unfold mmaSyncLdsT
  rw [if_pos h]

lemma epilogue_eq_writeGrid (cfg : KCfg) (c d : Mem α) (ldc ldd : ℕ) (alpha beta : α)
    (acc : ℕ → ℕ → α) :
    epilogue cfg c d ldc ldd alpha beta acc =
      writeGrid cfg.BlockM cfg.BlockN
        (fun i j =>
          dataOffset cfg.layD ldd (cfg.tileRow * cfg.BlockM) (cfg.tileCol * cfg.BlockN) +
            dataOffset cfg.layD ldd i j)
        (fun i j =>
          alpha * acc i j +
            beta *
              (if beta ≠ 0 then
                loadGlobal cfg.layC ldc
                  (dataOffset cfg.layC ldc (cfg.tileRow * cfg.BlockM) (cfg.tileCol * cfg.BlockN)) c
              else fun _ _ => 0) i j)
        d := rfl

lemma mmaSyncLds_stable (cfg : KCfg) (m n k : ℕ) (a b c : Mem α)
    (lda ldb ldc ldd : ℕ) (alpha beta : α) (lds0 : ℕ → α)
    (eff : ℕ → (ℕ → α) → (ℕ → α)) :
    WriteStable (fun d => mmaSyncLds cfg m n k a b c d lda ldb ldc ldd alpha beta lds0 eff) := by
  by_cases h : cfg.tileRow * cfg.BlockM < m ∧ cfg.tileCol * cfg.BlockN < n ∧ cfg.BlockK < k
  · have e1 : (fun d => mmaSyncLds cfg m n k a b c d lda ldb ldc ldd alpha beta lds0 eff) =
        fun d =>
          epilogue cfg c d ldc ldd alpha beta (accResOf cfg k a b lda ldb alpha lds0 eff).acc := by
      funext d
      unfold mmaSyncLds
      rw [mmaSyncLdsT_pos cfg m n k a b c d lda ldb ldc ldd alpha beta lds0 eff h]
    rw [e1]
    exact writeGrid_stable _ _ _ _
  · have e2 : (fun d => mmaSyncLds cfg m n k a b c d lda ldb ldc ldd alpha beta lds0 eff) =
        fun d => d := by
      funext d
      unfold mmaSyncLds
      rw [mmaSyncLdsT_neg cfg m n k a b c d lda ldb ldc ldd alpha beta lds0 eff h]
    rw [e2]
    intro d1 d2 ad
    right
    exact ⟨rfl, rfl⟩

lemma stable_comp (F G : Mem α → Mem α) (hF : WriteStable F) (hG : WriteStable G) :
    WriteStable (fun d => G (F d)) := by
  intro d1 d2 ad
  show G (F d1) ad = G (F d2) ad ∨ (G (F d1) ad = d1 ad ∧ G (F d2) ad = d2 ad)
  rcases hG (F d1) (F d2) ad with h | ⟨h1, h2⟩
  · left
    exact h
  · rcases hF d1 d2 ad with h3 | ⟨h4, h5⟩
    · left
      rw [h1, h2, h3]
    · right
      exact ⟨by rw [h1, h4], by rw [h2, h5]⟩

lemma launch_stable (ws : List (WaveRun α)) (m n k : ℕ) (a b c : Mem α)
    (lda ldb ldc ldd : ℕ) (alpha beta : α) :
    WriteStable (fun d => launch ws m n k a b c lda ldb ldc ldd alpha beta d) := by
  induction ws with
  | nil =>
    intro d1 d2 ad
    right
    exact ⟨rfl, rfl⟩
  | cons w ws ih =>
    exact stable_comp
      (fun d => mmaSyncLds w.cfg m n k a b c d lda ldb ldc ldd alpha beta w.lds0 w.eff)
      (fun d => launch ws m n k a b c lda ldb ldc ldd alpha beta d)
      (mmaSyncLds_stable w.cfg m n k a b c lda ldb ldc ldd alpha beta w.lds0 w.eff) ih

lemma stable_idem (F : Mem α → Mem α) (hF : WriteStable F) (d : Mem α) : F (F d) = F d := by
  funext ad
  rcases hF (F d) d ad with h | ⟨h1, h2⟩
  · exact h
  · exact h1

/-- C9: the kernel never reads the D buffer -- its output is independent of
D's initial contents at every address it writes, and it leaves every other
address untouched; in particular re-running the whole launch with the D
buffer reused as both previous output and fresh output buffer reproduces
bit-identical results. -/
theorem kernel_output_independent_of_D (ws : List (WaveRun α)) (m n k : ℕ) (a b c : Mem α)
    (lda ldb ldc ldd : ℕ) (alpha beta : α) :
    (∀ d, launch ws m n k a b c lda ldb ldc ldd alpha beta
        (launch ws m n k a b c lda ldb ldc ldd alpha beta d) =
      launch ws m n k a b c lda ldb ldc ldd alpha beta d) ∧
    (∀ d1 d2 ad,
      launch ws m n k a b c lda ldb ldc ldd alpha beta d1 ad =
        launch ws m n k a b c lda ldb ldc ldd alpha beta d2 ad ∨
      (launch ws m n k a b c lda ldb ldc ldd alpha beta d1 ad = d1 ad ∧
        launch ws m n k a b c lda ldb ldc ldd alpha beta d2 ad = d2 ad)) :=
  ⟨fun d => stable_idem _ (launch_stable ws m n k a b c lda ldb ldc ldd alpha beta) d,
    launch_stable ws m n k a b c lda ldb ldc ldd alpha beta⟩

/-- C2 (amended): a wave proceeds exactly under the kernel's guard -- the
top-left element of its tile within bounds (tileRow*BlockM < m and
tileCol*BlockN < n) and BlockK strictly smaller than k.  When the guard
fails the wave performs no work: its execution leaves every element of the
D buffer untouched (not zeroed, not corrupted). -/
theorem wave_skip_leaves_D_untouched (cfg : KCfg) (m n k : ℕ) (a b c d : Mem α)
    (lda ldb ldc ldd : ℕ) (alpha beta : α) (lds0 : ℕ → α)
    (eff : ℕ → (ℕ → α) → (ℕ → α))
    (h : ¬ (cfg.tileRow * cfg.BlockM < m ∧ cfg.tileCol * cfg.BlockN < n ∧ cfg.BlockK < k)) :
    mmaSyncLds cfg m n k a b c d lda ldb ldc ldd alpha beta lds0 eff = d := by
  unfold mmaSyncLds
  rw [mmaSyncLdsT_neg cfg m n k a b c d lda ldb ldc ldd alpha beta lds0 eff h]

/-- Witness for the amended C2: at k = BlockK = 8 the guard fails and D is
returned unchanged. -/
theorem wave_skip_leaves_D_untouched_witness :
    @mmaSyncLds ℕ _ _ cfg1 8 8 8 (fun _ => 1) (fun _ => 1) (fun _ => 0) (fun _ => 0)
      8 8 8 8 1 1 (fun _ => 0) noEff = (fun _ => 0) :=
  wave_skip_leaves_D_untouched cfg1 8 8 8 (fun _ => 1) (fun _ => 1) (fun _ => 0) (fun _ => 0)
    8 8 8 8 1 1 (fun _ => 0) noEff (by decide)

set_option maxRecDepth 100000 in
/-- C2 counterexample: with 8x8x8 blocks, m = 4, n = 8, k = 16 the tile of
wave (0, 0) does not lie fully within the output bounds (rows 4..7 stick
out), so by the claim the wave must perform no work and leave D untouched;
but the kernel's guard only checks the top-left corner, proceeds, and
writes the tile: D(0) becomes 16 instead of staying 0. -/
theorem wave_bounds_cex :
    @mmaSyncLds ℕ _ _ cfg1 4 8 16 (fun _ => 1) (fun _ => 1) (fun _ => 0) (fun _ => 0)
      8 8 8 8 1 0 (fun _ => 0) noEff 0 ≠ 0 := by
  decide

lemma loopBody_cnt (cx : LoopCtx α) (addrA0 addrB0 t : ℕ) (st : LoopSt α)
    (h : InvCnt cx addrA0 addrB0 t st) : InvCnt cx addrA0 addrB0 (t + 1) (loopBody cx st) := by
  obtain ⟨h1, h2, h3, h4⟩ := h
  refine ⟨?_, ?_, ?_, ?_⟩
  · show st.addrA + cx.incrA = addrA0 + cx.incrA * (t + 1 + 1)
    rw [h1]
    ring
  · show st.addrB + cx.incrB = addrB0 + cx.incrB * (t + 1 + 1)
    rw [h2]
    ring
  · show st.iters + 1 = t + 1
    rw [h3]
  · show st.mmas + 1 = t + 1
    rw [h4]

lemma mmaLoop_zero (cx : LoopCtx α) (st : LoopSt α) : mmaLoop cx 0 st = st := rfl

lemma mmaLoop_succ (cx : LoopCtx α) (fuel : ℕ) (st : LoopSt α) :
    mmaLoop cx (fuel + 1) st =
      if st.addrA = cx.endA then st else mmaLoop cx fuel (loopBody cx st) := rfl

lemma mmaLoop_cnt (cx : LoopCtx α) (addrA0 addrB0 q : ℕ)
    (hend : cx.endA = addrA0 + cx.incrA * q) (hincr : 0 < cx.incrA) :
    ∀ fuel t st, InvCnt cx addrA0 addrB0 t st → t + 1 ≤ q → q ≤ t + 1 + fuel →
      InvCnt cx addrA0 addrB0 (q - 1) (mmaLoop cx fuel st) := by
  intro fuel
  induction fuel with
  | zero =>
    intro t st h ht1 ht2
    have he : t = q - 1 := by omega
    rw [mmaLoop_zero, ← he]
    exact h
  | succ fuel ih =>
    intro t st h ht1 ht2
    rw [mmaLoop_succ]
    by_cases hq : t + 1 = q
    · have he : st.addrA = cx.endA := by rw [h.1, hend, hq]
      have he2 : q - 1 = t := by omega
      rw [if_pos he, he2]
      exact h
    · have hne : st.addrA ≠ cx.endA := by
        rw [h.1, hend]
        intro he
        have e1 := Nat.add_left_cancel he
        have e2 := Nat.eq_of_mul_eq_mul_left hincr e1
        omega
      rw [if_neg hne]
      exact ih (t + 1) (loopBody cx st) (loopBody_cnt cx addrA0 addrB0 t st h)
        (by omega) (by omega)

lemma incrAOf_pos (cfg : KCfg) (lda : ℕ) (hBK : 0 < cfg.BlockK) (hlda : 0 < lda) :
    0 < incrAOf cfg lda := by
  unfold incrAOf dataOffset
  cases cfg.layA
  · simpa using hBK
  · simpa using Nat.mul_pos hBK hlda

lemma loopSt0_cnt (cfg : KCfg) (k : ℕ) (a b : Mem α) (lda ldb : ℕ) (lds0 : ℕ → α)
    (eff : ℕ → (ℕ → α) → (ℕ → α)) :
    InvCnt (loopCtxOf cfg k a b lda ldb eff) (addrA0Of cfg lda) (addrB0Of cfg ldb) 0
      (loopSt0Of cfg a b lda ldb lds0) := by
  refine ⟨?_, ?_, rfl, rfl⟩
  · show addrA0Of cfg lda + incrAOf cfg lda = addrA0Of cfg lda + incrAOf cfg lda * (0 + 1)
    ring
  · show addrB0Of cfg ldb + incrBOf cfg ldb = addrB0Of cfg ldb + incrBOf cfg ldb * (0 + 1)
    ring

lemma accPhase_cnt (cfg : KCfg) (k : ℕ) (a b : Mem α) (lda ldb : ℕ) (lds0 : ℕ → α)
    (eff : ℕ → (ℕ → α) → (ℕ → α))
    (hBK : 0 < cfg.BlockK) (hlda : 0 < lda) (hkk : cfg.BlockK < k) :
    (accPhase cfg k a b lda ldb lds0 eff).iters = k / cfg.BlockK - 1 ∧
      (accPhase cfg k a b lda ldb lds0 eff).mmas = k / cfg.BlockK ∧
      (accPhase cfg k a b lda ldb lds0 eff).addrAEnd = endAOf cfg k lda := by
  have hq1 : 1 ≤ k / cfg.BlockK := (Nat.one_le_div_iff hBK).2 (le_of_lt hkk)
  have hqk : k / cfg.BlockK ≤ k := Nat.div_le_self k cfg.BlockK
  have hrun := mmaLoop_cnt (loopCtxOf cfg k a b lda ldb eff) (addrA0Of cfg lda)
    (addrB0Of cfg ldb) (k / cfg.BlockK) rfl (incrAOf_pos cfg lda hBK hlda) k 0
    (loopSt0Of cfg a b lda ldb lds0) (loopSt0_cnt cfg k a b lda ldb lds0 eff)
    hq1 (by omega)
  obtain ⟨e1, e2, e3, e4⟩ := hrun
  refine ⟨e3, ?_, ?_⟩
  · show (mmaLoop (loopCtxOf cfg k a b lda ldb eff) k
      (loopSt0Of cfg a b lda ldb lds0)).mmas + 1 = k / cfg.BlockK
    rw [e4]
    omega
  · show (mmaLoop (loopCtxOf cfg k a b lda ldb eff) k
      (loopSt0Of cfg a b lda ldb lds0)).addrA = endAOf cfg k lda
    rw [e1]
    show addrA0Of cfg lda + incrAOf cfg lda * (k / cfg.BlockK - 1 + 1) = endAOf cfg k lda
    have he : k / cfg.BlockK - 1 + 1 = k / cfg.BlockK := by omega
    rw [he]
    rfl

/-- C4 (amended): when the eligibility guard passes (including a nonzero
alpha, without which the accumulation phase is skipped entirely), the
steady-state loop terminates after exactly k/BlockK - 1 iterations, with
the A address having advanced one block stride per iteration until it
equals the end address, one final multiply-accumulate is issued in the
drain after the loop, and exactly k/BlockK multiply-accumulate operations
are performed in total.  (K being a multiple of BlockK is the caller's
contract; the iteration count holds for any K accepted by the guard.) -/
theorem loop_runs_kdivblk_minus_one (cfg : KCfg) (m n k : ℕ) (a b c d : Mem α)
    (lda ldb ldc ldd : ℕ) (alpha beta : α) (lds0 : ℕ → α)
    (eff : ℕ → (ℕ → α) → (ℕ → α))
    (hg : cfg.tileRow * cfg.BlockM < m ∧ cfg.tileCol * cfg.BlockN < n ∧ cfg.BlockK < k)
    (ha : alpha ≠ 0) (hdvd : cfg.BlockK ∣ k) (hBK : 0 < cfg.BlockK) (hlda : 0 < lda) :
    (mmaSyncLdsT cfg m n k a b c d lda ldb ldc ldd alpha beta lds0 eff).iters =
        k / cfg.BlockK - 1 ∧
      (mmaSyncLdsT cfg m n k a b c d lda ldb ldc ldd alpha beta lds0 eff).mmas =
        k / cfg.BlockK ∧
      (mmaSyncLdsT cfg m n k a b c d lda ldb ldc ldd alpha beta lds0 eff).addrAEnd =
        (mmaSyncLdsT cfg m n k a b c d lda ldb ldc ldd alpha beta lds0 eff).endA := by
  rw [mmaSyncLdsT_pos cfg m n k a b c d lda ldb ldc ldd alpha beta lds0 eff hg]
  rw [accResOf_pos cfg k a b lda ldb alpha lds0 eff ha]
  obtain ⟨e1, e2, e3⟩ := accPhase_cnt cfg k a b lda ldb lds0 eff hBK hlda hg.2.2
  exact ⟨e1, e2, by rw [e3]; rfl⟩

/-- Witness for the amended C4 at a concrete eligible problem (k = 16,
BlockK = 8): one loop iteration and two multiply-accumulates in total. -/
theorem loop_runs_kdivblk_minus_one_witness :
    (@mmaSyncLdsT ℕ _ _ cfg1 8 8 16 (fun _ => 1) (fun _ => 1) (fun _ => 0) (fun _ => 0)
        8 8 8 8 1 1 (fun _ => 0) noEff).iters = 16 / 8 - 1 ∧
      (@mmaSyncLdsT ℕ _ _ cfg1 8 8 16 (fun _ => 1) (fun _ => 1) (fun _ => 0) (fun _ => 0)
        8 8 8 8 1 1 (fun _ => 0) noEff).mmas = 16 / 8 ∧
      (@mmaSyncLdsT ℕ _ _ cfg1 8 8 16 (fun _ => 1) (fun _ => 1) (fun _ => 0) (fun _ => 0)
        8 8 8 8 1 1 (fun _ => 0) noEff).addrAEnd =
        (@mmaSyncLdsT ℕ _ _ cfg1 8 8 16 (fun _ => 1) (fun _ => 1) (fun _ => 0) (fun _ => 0)
          8 8 8 8 1 1 (fun _ => 0) noEff).endA :=
  loop_runs_kdivblk_minus_one cfg1 8 8 16 (fun _ => 1) (fun _ => 1) (fun _ => 0) (fun _ => 0)
    8 8 8 8 1 1 (fun _ => 0) noEff (by decide) (by decide) (by decide) (by decide) (by decide)

/-- C4 counterexample: the claim's preconditions do not mention alpha, but
with alpha = 0 and an otherwise eligible problem (k = 16, BlockK = 8, tile
in bounds) the kernel issues zero multiply-accumulates, not k/BlockK = 2:
the accumulation loop never runs. -/
theorem loop_runs_cex :
    ¬ ((@mmaSyncLdsT ℕ _ _ cfg1 8 8 16 (fun _ => 1) (fun _ => 1) (fun _ => 0) (fun _ => 0)
        8 8 8 8 0 1 (fun _ => 0) noEff).mmas = 16 / 8) := by
  decide

lemma rowcol_inj (ld r1 c1 r2 c2 : ℕ) (hc1 : c1 < ld) (hc2 : c2 < ld)
    (h : r1 * ld + c1 = r2 * ld + c2) : r1 = r2 ∧ c1 = c2 := by
  have d1 := decompDiv ld r1 c1 hc1
  have d2 := decompDiv ld r2 c2 hc2
  constructor
  · rw [← d1.1, h, d2.1]
  · rw [← d1.2, h, d2.2]

lemma tile_addr_inj (lay : Layout) (ld R0 C0 M N : ℕ)
    (hrow : lay = .row_major → C0 + N ≤ ld) (hcol : lay = .col_major → R0 + M ≤ ld)
    (i j i2 j2 : ℕ) (hi2 : i2 < M) (hj2 : j2 < N) (hi : i < M) (hj : j < N)
    (h : dataOffset lay ld R0 C0 + dataOffset lay ld i2 j2 =
      dataOffset lay ld R0 C0 + dataOffset lay ld i j) : i2 = i ∧ j2 = j := by
  rw [dataOffset_add, dataOffset_add] at h
  cases lay with
  | row_major =>
    have hld := hrow rfl
    simp only [dataOffset] at h
    have e := rowcol_inj ld (R0 + i2) (C0 + j2) (R0 + i) (C0 + j)
      (by omega) (by omega) h
    omega
  | col_major =>
    have hld := hcol rfl
    simp only [dataOffset] at h
    have e := rowcol_inj ld (C0 + j2) (R0 + i2) (C0 + j) (R0 + i)
      (by omega) (by omega) h
    omega

lemma epilogue_value (cfg : KCfg) (c d : Mem α) (ldc ldd : ℕ) (alpha beta : α)
    (acc : ℕ → ℕ → α) (i j : ℕ) (hi : i < cfg.BlockM) (hj : j < cfg.BlockN)
    (hrow : cfg.layD = .row_major → cfg.tileCol * cfg.BlockN + cfg.BlockN ≤ ldd)
    (hcol : cfg.layD = .col_major → cfg.tileRow * cfg.BlockM + cfg.BlockM ≤ ldd) :
    epilogue cfg c d ldc ldd alpha beta acc
        (dataOffset cfg.layD ldd (cfg.tileRow * cfg.BlockM + i)
          (cfg.tileCol * cfg.BlockN + j)) =
      alpha * acc i j +
        beta * c (dataOffset cfg.layC ldc (cfg.tileRow * cfg.BlockM + i)
          (cfg.tileCol * cfg.BlockN + j)) := by
  rw [epilogue_eq_writeGrid,
    ← dataOffset_add cfg.layD ldd (cfg.tileRow * cfg.BlockM) (cfg.tileCol * cfg.BlockN) i j,
    writeGrid_hit cfg.BlockM cfg.BlockN _ _ d i j hi hj
      (fun i2 j2 hi2 hj2 he =>
        tile_addr_inj cfg.layD ldd (cfg.tileRow * cfg.BlockM) (cfg.tileCol * cfg.BlockN)
          cfg.BlockM cfg.BlockN hrow hcol i j i2 j2 hi2 hj2 hi hj he)]
  by_cases hb : beta = 0
  · subst hb
    show alpha * acc i j +
        0 * (if (0 : α) ≠ 0 then loadGlobal cfg.layC ldc
          (dataOffset cfg.layC ldc (cfg.tileRow * cfg.BlockM) (cfg.tileCol * cfg.BlockN)) c
          else fun _ _ => 0) i j = alpha * acc i j + 0 * c _
    simp
  · show alpha * acc i j +
        beta * (if beta ≠ 0 then loadGlobal cfg.layC ldc
          (dataOffset cfg.layC ldc (cfg.tileRow * cfg.BlockM) (cfg.tileCol * cfg.BlockN)) c
          else fun _ _ => 0) i j = _
    rw [if_pos hb]
    show alpha * acc i j +
        beta * c (dataOffset cfg.layC ldc (cfg.tileRow * cfg.BlockM) (cfg.tileCol * cfg.BlockN) +
          dataOffset cfg.layC ldc i j) = _
    rw [dataOffset_add]

/-- C3: with alpha exactly zero the accumulation phase is skipped entirely:
the kernel's whole trace (output included) is identical for any contents of
A, B, the staging buffer and the barrier interference, since none of them
is ever read; no multiply-accumulate is issued; the accumulator fragment
stays zero; and every element of the in-bounds tile is written as
beta * C exactly. -/
theorem zero_alpha_skips_accumulation (cfg : KCfg) (m n k : ℕ)
    (a b a2 b2 c d : Mem α) (lda ldb ldc ldd : ℕ) (beta : α)
    (lds0 lds02 : ℕ → α) (eff eff2 : ℕ → (ℕ → α) → (ℕ → α))
    (hg : cfg.tileRow * cfg.BlockM < m ∧ cfg.tileCol * cfg.BlockN < n ∧ cfg.BlockK < k)
    (hrow : cfg.layD = .row_major → cfg.tileCol * cfg.BlockN + cfg.BlockN ≤ ldd)
    (hcol : cfg.layD = .col_major → cfg.tileRow * cfg.BlockM + cfg.BlockM ≤ ldd) :
    mmaSyncLdsT cfg m n k a b c d lda ldb ldc ldd 0 beta lds0 eff =
        mmaSyncLdsT cfg m n k a2 b2 c d lda ldb ldc ldd 0 beta lds02 eff2 ∧
      (mmaSyncLdsT cfg m n k a b c d lda ldb ldc ldd 0 beta lds0 eff).mmas = 0 ∧
      (mmaSyncLdsT cfg m n k a b c d lda ldb ldc ldd 0 beta lds0 eff).acc =
        (fun _ _ => 0) ∧
      (∀ i j, i < cfg.BlockM → j < cfg.BlockN →
        mmaSyncLds cfg m n k a b c d lda ldb ldc ldd 0 beta lds0 eff
            (dataOffset cfg.layD ldd (cfg.tileRow * cfg.BlockM + i)
              (cfg.tileCol * cfg.BlockN + j)) =
          beta * c (dataOffset cfg.layC ldc (cfg.tileRow * cfg.BlockM + i)
            (cfg.tileCol * cfg.BlockN + j))) := by
  refine ⟨?_, ?_, ?_, ?_⟩
  · rw [mmaSyncLdsT_pos cfg m n k a b c d lda ldb ldc ldd 0 beta lds0 eff hg,
      mmaSyncLdsT_pos cfg m n k a2 b2 c d lda ldb ldc ldd 0 beta lds02 eff2 hg,
      accResOf_zero cfg k a b lda ldb lds0 eff,
      accResOf_zero cfg k a2 b2 lda ldb lds02 eff2]
  · rw [mmaSyncLdsT_pos cfg m n k a b c d lda ldb ldc ldd 0 beta lds0 eff hg,
      accResOf_zero cfg k a b lda ldb lds0 eff]
  · rw [mmaSyncLdsT_pos cfg m n k a b c d lda ldb ldc ldd 0 beta lds0 eff hg,
      accResOf_zero cfg k a b lda ldb lds0 eff]
  · intro i j hi hj
    unfold mmaSyncLds
    rw [mmaSyncLdsT_pos cfg m n k a b c d lda ldb ldc ldd 0 beta lds0 eff hg,
      accResOf_zero cfg k a b lda ldb lds0 eff]
    show epilogue cfg c d ldc ldd 0 beta (fun _ _ => 0)
        (dataOffset cfg.layD ldd (cfg.tileRow * cfg.BlockM + i)
          (cfg.tileCol * cfg.BlockN + j)) = _
    rw [epilogue_value cfg c d ldc ldd 0 beta (fun _ _ => 0) i j hi hj hrow hcol]
    simp

/-- Witness for C3 at a concrete problem: with alpha = 0, beta = 2 and C
constantly 3, the kernel writes 2 * 3 at the tile's (0, 0) element. -/
theorem zero_alpha_skips_accumulation_witness :
    @mmaSyncLds ℕ _ _ cfg1 8 8 16 (fun _ => 1) (fun _ => 1) (fun _ => 3) (fun _ => 5)
        8 8 8 8 0 2 (fun _ => 0) noEff
        (dataOffset cfg1.layD 8 (cfg1.tileRow * cfg1.BlockM + 0)
          (cfg1.tileCol * cfg1.BlockN + 0)) = 2 * 3 :=
  (zero_alpha_skips_accumulation cfg1 8 8 16 (fun _ => 1) (fun _ => 1) (fun _ => 1)
      (fun _ => 1) (fun _ => 3) (fun _ => 5) 8 8 8 8 2 (fun _ => 0) (fun _ => 0) noEff noEff
      (by decide) (by decide) (by decide)).2.2.2 0 0 (by decide) (by decide)

lemma waveSize_le_ldLds (cfg : KCfg) (hwy : cfg.waveY < cfg.wgDimY) :
    cfg.waveSize ≤ ldLdsOf cfg := by
  unfold ldLdsOf
  calc cfg.waveSize = cfg.waveSize * 1 := by ring
  _ ≤ cfg.waveSize * cfg.wgDimY := Nat.mul_le_mul_left cfg.waveSize (by omega)

lemma flatOf_encode (cols : ℕ) (frag : ℕ → ℕ → α) (i h : ℕ) (hh : h < cols) :
    flatOf cols frag (i * cols + h) = frag i h := by
  unfold flatOf
  rw [(decompDiv cols i h hh).1, (decompDiv cols i h hh).2]

lemma flat_index_lt (M K i h : ℕ) (hi : i < M) (hh : h < K) : i * K + h < M * K := by
  have e1 : i * K + h < (i + 1) * K := by
    have : (i + 1) * K = i * K + K := by ring
    omega
  have e2 : (i + 1) * K ≤ M * K := Nat.mul_le_mul_right K (by omega)
  omega

lemma store2_slotA (cfg : KCfg) (hwx : cfg.waveX < cfg.wgDimX) (hwy : cfg.waveY < cfg.wgDimY)
    (vA vB : ℕ → α) (mem : ℕ → α) (n : ℕ) (hn : n < cfg.fragSizeA * cfg.waveSize) :
    ldsStore (slotBOf cfg) (ldLdsOf cfg) cfg.fragSizeB cfg.waveSize vB
        (ldsStore (slotAOf cfg) (ldLdsOf cfg) cfg.fragSizeA cfg.waveSize vA mem)
        (slotAddr (slotAOf cfg) (ldLdsOf cfg) cfg.waveSize n) = vA n := by
  have hwl := waveSize_le_ldLds cfg hwy
  have hinA := slotAddr_inSlot (slotAOf cfg) (ldLdsOf cfg) cfg.fragSizeA cfg.waveSize n hwl hn
  have hnotB := slotA_slotB_disjoint cfg hwx hwy _ hinA
  rw [ldsStore_miss (slotBOf cfg) (ldLdsOf cfg) cfg.fragSizeB cfg.waveSize vB _ _ hnotB]
  exact ldsLoad_ldsStore (slotAOf cfg) (ldLdsOf cfg) cfg.fragSizeA cfg.waveSize vA mem hwl n hn

lemma store2_slotB (cfg : KCfg) (hwy : cfg.waveY < cfg.wgDimY)
    (vB : ℕ → α) (mem : ℕ → α) (n : ℕ) (hn : n < cfg.fragSizeB * cfg.waveSize) :
    ldsStore (slotBOf cfg) (ldLdsOf cfg) cfg.fragSizeB cfg.waveSize vB mem
        (slotAddr (slotBOf cfg) (ldLdsOf cfg) cfg.waveSize n) = vB n :=
  ldsLoad_ldsStore (slotBOf cfg) (ldLdsOf cfg) cfg.fragSizeB cfg.waveSize vB mem
    (waveSize_le_ldLds cfg hwy) n hn

lemma eff_reads_slotA (cfg : KCfg) (eff : ℕ → (ℕ → α) → (ℕ → α)) (heff : EffOk cfg eff)
    (hwy : cfg.waveY < cfg.wgDimY) (t : ℕ) (mem : ℕ → α) (n : ℕ)
    (hn : n < cfg.fragSizeA * cfg.waveSize) :
    eff t mem (slotAddr (slotAOf cfg) (ldLdsOf cfg) cfg.waveSize n) =
      mem (slotAddr (slotAOf cfg) (ldLdsOf cfg) cfg.waveSize n) :=
  heff t mem _ (Or.inl (slotAddr_inSlot (slotAOf cfg) (ldLdsOf cfg) cfg.fragSizeA
    cfg.waveSize n (waveSize_le_ldLds cfg hwy) hn))

lemma eff_reads_slotB (cfg : KCfg) (eff : ℕ → (ℕ → α) → (ℕ → α)) (heff : EffOk cfg eff)
    (hwy : cfg.waveY < cfg.wgDimY) (t : ℕ) (mem : ℕ → α) (n : ℕ)
    (hn : n < cfg.fragSizeB * cfg.waveSize) :
    eff t mem (slotAddr (slotBOf cfg) (ldLdsOf cfg) cfg.waveSize n) =
      mem (slotAddr (slotBOf cfg) (ldLdsOf cfg) cfg.waveSize n) :=
  heff t mem _ (Or.inr (slotAddr_inSlot (slotBOf cfg) (ldLdsOf cfg) cfg.fragSizeB
    cfg.waveSize n (waveSize_le_ldLds cfg hwy) hn))

lemma sliceA_addr (cfg : KCfg) (a : Mem α) (lda s i h : ℕ) :
    sliceA cfg a lda s i h =
      a (dataOffset cfg.layA lda (cfg.tileRow * cfg.BlockM + i) (s * cfg.BlockK + h)) := by
  unfold sliceA loadGlobal addrA0Of incrAOf
  cases cfg.layA <;> simp [dataOffset] <;> ring_nf

lemma sliceB_addr (cfg : KCfg) (b : Mem α) (ldb s h j : ℕ) :
    sliceB cfg b ldb s h j =
      b (dataOffset cfg.layB ldb (s * cfg.BlockK + h) (cfg.tileCol * cfg.BlockN + j)) := by
  unfold sliceB loadGlobal addrB0Of incrBOf
  cases cfg.layB <;> simp [dataOffset] <;> ring_nf

lemma sum_range_append (F : ℕ → α) (p r : ℕ) :
    (Finset.range (p + r)).sum F =
      (Finset.range p).sum F + (Finset.range r).sum (fun i => F (p + i)) := by
  induction r with
  | zero => simp
  | succ r ih =>
    have e : p + (r + 1) = (p + r) + 1 := by ring
    rw [e, Finset.sum_range_succ, ih, Finset.sum_range_succ, add_assoc]

lemma sum_range_block (B q : ℕ) (F : ℕ → α) :
    (Finset.range q).sum (fun s => (Finset.range B).sum (fun h => F (s * B + h))) =
      (Finset.range (q * B)).sum F := by
  induction q with
  | zero => simp
  | succ q ih =>
    rw [Finset.sum_range_succ, ih]
    have e : (q + 1) * B = q * B + B := by ring
    rw [e, sum_range_append F (q * B) B]

lemma loopBody_inv (cfg : KCfg) (k : ℕ) (a b : Mem α) (lda ldb : ℕ)
    (eff : ℕ → (ℕ → α) → (ℕ → α)) (heff : EffOk cfg eff)
    (hA : cfg.fragSizeA * cfg.waveSize = cfg.BlockM * cfg.BlockK)
    (hB : cfg.fragSizeB * cfg.waveSize = cfg.BlockK * cfg.BlockN)
    (hwx : cfg.waveX < cfg.wgDimX) (hwy : cfg.waveY < cfg.wgDimY)
    (t : ℕ) (st : LoopSt α) (h : LoopInv cfg a b lda ldb t st) :
    LoopInv cfg a b lda ldb (t + 1) (loopBody (loopCtxOf cfg k a b lda ldb eff) st) := by
  obtain ⟨h1, h2, h3, h4, hacc, hldsA, hldsB⟩ := h
  have hfA : ∀ i hh, i < cfg.BlockM → hh < cfg.BlockK →
      tileOf cfg.BlockK (ldsLoad (slotAOf cfg) (ldLdsOf cfg) cfg.waveSize
        (eff st.iters st.lds)) i hh = sliceA cfg a lda t i hh := by
    intro i hh hi hhh
    have hn : i * cfg.BlockK + hh < cfg.fragSizeA * cfg.waveSize := by
      rw [hA]
      exact flat_index_lt _ _ _ _ hi hhh
    show eff st.iters st.lds
      (slotAddr (slotAOf cfg) (ldLdsOf cfg) cfg.waveSize (i * cfg.BlockK + hh)) = _
    rw [eff_reads_slotA cfg eff heff hwy st.iters st.lds _ hn, hldsA _ hn,
      flatOf_encode cfg.BlockK _ i hh hhh]
  have hfB : ∀ hh j, hh < cfg.BlockK → j < cfg.BlockN →
      tileOf cfg.BlockN (ldsLoad (slotBOf cfg) (ldLdsOf cfg) cfg.waveSize
        (eff st.iters st.lds)) hh j = sliceB cfg b ldb t hh j := by
    intro hh j hhh hj
    have hn : hh * cfg.BlockN + j < cfg.fragSizeB * cfg.waveSize := by
      rw [hB]
      exact flat_index_lt _ _ _ _ hhh hj
    show eff st.iters st.lds
      (slotAddr (slotBOf cfg) (ldLdsOf cfg) cfg.waveSize (hh * cfg.BlockN + j)) = _
    rw [eff_reads_slotB cfg eff heff hwy st.iters st.lds _ hn, hldsB _ hn,
      flatOf_encode cfg.BlockN _ hh j hj]
  refine ⟨?_, ?_, ?_, ?_, ?_, ?_, ?_⟩
  · show st.addrA + incrAOf cfg lda = addrA0Of cfg lda + incrAOf cfg lda * (t + 1 + 1)
    rw [h1]
    ring
  · show st.addrB + incrBOf cfg ldb = addrB0Of cfg ldb + incrBOf cfg ldb * (t + 1 + 1)
    rw [h2]
    ring
  · show st.iters + 1 = t + 1
    omega
  · show st.mmas + 1 = t + 1
    omega
  · intro i j hi hj
    show mmaStep cfg.BlockK
        (tileOf cfg.BlockK (ldsLoad (slotAOf cfg) (ldLdsOf cfg) cfg.waveSize
          (eff st.iters st.lds)))
        (tileOf cfg.BlockN (ldsLoad (slotBOf cfg) (ldLdsOf cfg) cfg.waveSize
          (eff st.iters st.lds)))
        st.fragAcc i j = accAt cfg a b lda ldb (t + 1) i j
    unfold mmaStep
    rw [hacc i j hi hj]
    unfold accAt
    rw [Finset.sum_range_succ]
    congr 1
    apply Finset.sum_congr rfl
    intro hh hmem
    have hhh := Finset.mem_range.1 hmem
    rw [hfA i hh hi hhh, hfB hh j hhh hj]
  · intro n hn
    show ldsStore (slotBOf cfg) (ldLdsOf cfg) cfg.fragSizeB cfg.waveSize
        (flatOf cfg.BlockN (loadGlobal cfg.layB ldb st.addrB b))
        (ldsStore (slotAOf cfg) (ldLdsOf cfg) cfg.fragSizeA cfg.waveSize
          (flatOf cfg.BlockK (loadGlobal cfg.layA lda st.addrA a))
          (eff st.iters st.lds))
        (slotAddr (slotAOf cfg) (ldLdsOf cfg) cfg.waveSize n) =
      flatOf cfg.BlockK (sliceA cfg a lda (t + 1)) n
    rw [store2_slotA cfg hwx hwy _ _ _ n hn]
    have e : loadGlobal cfg.layA lda st.addrA a = sliceA cfg a lda (t + 1) := by
      unfold sliceA
      rw [h1, Nat.mul_comm (incrAOf cfg lda) (t + 1)]
    rw [e]
  · intro n hn
    show ldsStore (slotBOf cfg) (ldLdsOf cfg) cfg.fragSizeB cfg.waveSize
        (flatOf cfg.BlockN (loadGlobal cfg.layB ldb st.addrB b))
        (ldsStore (slotAOf cfg) (ldLdsOf cfg) cfg.fragSizeA cfg.waveSize
          (flatOf cfg.BlockK (loadGlobal cfg.layA lda st.addrA a))
          (eff st.iters st.lds))
        (slotAddr (slotBOf cfg) (ldLdsOf cfg) cfg.waveSize n) =
      flatOf cfg.BlockN (sliceB cfg b ldb (t + 1)) n
    rw [store2_slotB cfg hwy _ _ n hn]
    have e : loadGlobal cfg.layB ldb st.addrB b = sliceB cfg b ldb (t + 1) := by
      unfold sliceB
      rw [h2, Nat.mul_comm (incrBOf cfg ldb) (t + 1)]
    rw [e]

lemma mmaLoop_inv (cfg : KCfg) (k : ℕ) (a b : Mem α) (lda ldb : ℕ)
    (eff : ℕ → (ℕ → α) → (ℕ → α)) (heff : EffOk cfg eff)
    (hA : cfg.fragSizeA * cfg.waveSize = cfg.BlockM * cfg.BlockK)
    (hB : cfg.fragSizeB * cfg.waveSize = cfg.BlockK * cfg.BlockN)
    (hwx : cfg.waveX < cfg.wgDimX) (hwy : cfg.waveY < cfg.wgDimY)
    (hincr : 0 < incrAOf cfg lda) :
    ∀ fuel t st, LoopInv cfg a b lda ldb t st → t + 1 ≤ k / cfg.BlockK →
      k / cfg.BlockK ≤ t + 1 + fuel →
      LoopInv cfg a b lda ldb (k / cfg.BlockK - 1)
        (mmaLoop (loopCtxOf cfg k a b lda ldb eff) fuel st) := by
  intro fuel
  induction fuel with
  | zero =>
    intro t st h ht1 ht2
    have he : t = k / cfg.BlockK - 1 := by omega
    rw [mmaLoop_zero, ← he]
    exact h
  | succ fuel ih =>
    intro t st h ht1 ht2
    rw [mmaLoop_succ]
    by_cases hq : t + 1 = k / cfg.BlockK
    · have he : st.addrA = (loopCtxOf cfg k a b lda ldb eff).endA := by
        show st.addrA = endAOf cfg k lda
        rw [h.1, hq]
        rfl
      rw [if_pos he]
      have he2 : k / cfg.BlockK - 1 = t := by omega
      rw [he2]
      exact h
    · have hne : st.addrA ≠ (loopCtxOf cfg k a b lda ldb eff).endA := by
        rw [h.1]
        show addrA0Of cfg lda + incrAOf cfg lda * (t + 1) ≠ endAOf cfg k lda
        unfold endAOf
        intro he
        have e1 := Nat.add_left_cancel he
        have e2 := Nat.eq_of_mul_eq_mul_left hincr e1
        omega
      rw [if_neg hne]
      exact ih (t + 1) _ (loopBody_inv cfg k a b lda ldb eff heff hA hB hwx hwy t st h)
        (by omega) (by omega)

lemma loopSt0_inv (cfg : KCfg) (a b : Mem α) (lda ldb : ℕ) (lds0 : ℕ → α)
    (hwx : cfg.waveX < cfg.wgDimX) (hwy : cfg.waveY < cfg.wgDimY) :
    LoopInv cfg a b lda ldb 0 (loopSt0Of cfg a b lda ldb lds0) := by
  refine ⟨?_, ?_, rfl, rfl, ?_, ?_, ?_⟩
  · show addrA0Of cfg lda + incrAOf cfg lda = addrA0Of cfg lda + incrAOf cfg lda * (0 + 1)
    ring
  · show addrB0Of cfg ldb + incrBOf cfg ldb = addrB0Of cfg ldb + incrBOf cfg ldb * (0 + 1)
    ring
  · intro i j hi hj
    show (0 : α) = accAt cfg a b lda ldb 0 i j
    unfold accAt
    simp
  · intro n hn
    show ldsStore (slotBOf cfg) (ldLdsOf cfg) cfg.fragSizeB cfg.waveSize
        (flatOf cfg.BlockN (loadGlobal cfg.layB ldb (addrB0Of cfg ldb) b))
        (ldsStore (slotAOf cfg) (ldLdsOf cfg) cfg.fragSizeA cfg.waveSize
          (flatOf cfg.BlockK (loadGlobal cfg.layA lda (addrA0Of cfg lda) a)) lds0)
        (slotAddr (slotAOf cfg) (ldLdsOf cfg) cfg.waveSize n) =
      flatOf cfg.BlockK (sliceA cfg a lda 0) n
    rw [store2_slotA cfg hwx hwy _ _ _ n hn]
    have e : loadGlobal cfg.layA lda (addrA0Of cfg lda) a = sliceA cfg a lda 0 := by
      unfold sliceA
      simp
    rw [e]
  · intro n hn
    show ldsStore (slotBOf cfg) (ldLdsOf cfg) cfg.fragSizeB cfg.waveSize
        (flatOf cfg.BlockN (loadGlobal cfg.layB ldb (addrB0Of cfg ldb) b))
        (ldsStore (slotAOf cfg) (ldLdsOf cfg) cfg.fragSizeA cfg.waveSize
          (flatOf cfg.BlockK (loadGlobal cfg.layA lda (addrA0Of cfg lda) a)) lds0)
        (slotAddr (slotBOf cfg) (ldLdsOf cfg) cfg.waveSize n) =
      flatOf cfg.BlockN (sliceB cfg b ldb 0) n
    rw [store2_slotB cfg hwy _ _ n hn]
    have e : loadGlobal cfg.layB ldb (addrB0Of cfg ldb) b = sliceB cfg b ldb 0 := by
      unfold sliceB
      simp
    rw [e]

lemma accPhase_acc (cfg : KCfg) (k : ℕ) (a b : Mem α) (lda ldb : ℕ) (lds0 : ℕ → α)
    (eff : ℕ → (ℕ → α) → (ℕ → α)) (heff : EffOk cfg eff)
    (hA : cfg.fragSizeA * cfg.waveSize = cfg.BlockM * cfg.BlockK)
    (hB : cfg.fragSizeB * cfg.waveSize = cfg.BlockK * cfg.BlockN)
    (hwx : cfg.waveX < cfg.wgDimX) (hwy : cfg.waveY < cfg.wgDimY)
    (hBK : 0 < cfg.BlockK) (hlda : 0 < lda) (hkk : cfg.BlockK < k)
    (i j : ℕ) (hi : i < cfg.BlockM) (hj : j < cfg.BlockN) :
    (accPhase cfg k a b lda ldb lds0 eff).acc i j =
      accAt cfg a b lda ldb (k / cfg.BlockK) i j := by
  have hq1 : 1 ≤ k / cfg.BlockK := (Nat.one_le_div_iff hBK).2 (le_of_lt hkk)
  have hrun := mmaLoop_inv cfg k a b lda ldb eff heff hA hB hwx hwy
    (incrAOf_pos cfg lda hBK hlda) k 0 (loopSt0Of cfg a b lda ldb lds0)
    (loopSt0_inv cfg a b lda ldb lds0 hwx hwy) hq1
    (by have := Nat.div_le_self k cfg.BlockK; omega)
  obtain ⟨e1, e2, e3, e4, eacc, eldsA, eldsB⟩ := hrun
  show mmaStep cfg.BlockK
      (tileOf cfg.BlockK (ldsLoad (slotAOf cfg) (ldLdsOf cfg) cfg.waveSize
        (mmaLoop (loopCtxOf cfg k a b lda ldb eff) k
          (loopSt0Of cfg a b lda ldb lds0)).lds))
      (tileOf cfg.BlockN (ldsLoad (slotBOf cfg) (ldLdsOf cfg) cfg.waveSize
        (mmaLoop (loopCtxOf cfg k a b lda ldb eff) k
          (loopSt0Of cfg a b lda ldb lds0)).lds))
      (mmaLoop (loopCtxOf cfg k a b lda ldb eff) k
        (loopSt0Of cfg a b lda ldb lds0)).fragAcc i j = _
  unfold mmaStep
  rw [eacc i j hi hj]
  have hsum : (Finset.range cfg.BlockK).sum (fun hh =>
      tileOf cfg.BlockK (ldsLoad (slotAOf cfg) (ldLdsOf cfg) cfg.waveSize
        (mmaLoop (loopCtxOf cfg k a b lda ldb eff) k
          (loopSt0Of cfg a b lda ldb lds0)).lds) i hh *
      tileOf cfg.BlockN (ldsLoad (slotBOf cfg) (ldLdsOf cfg) cfg.waveSize
        (mmaLoop (loopCtxOf cfg k a b lda ldb eff) k
          (loopSt0Of cfg a b lda ldb lds0)).lds) hh j) =
      (Finset.range cfg.BlockK).sum (fun hh =>
        sliceA cfg a lda (k / cfg.BlockK - 1) i hh *
          sliceB cfg b ldb (k / cfg.BlockK - 1) hh j) := by
    apply Finset.sum_congr rfl
    intro hh hmem
    have hhh := Finset.mem_range.1 hmem
    have hnA : i * cfg.BlockK + hh < cfg.fragSizeA * cfg.waveSize := by
      rw [hA]
      exact flat_index_lt _ _ _ _ hi hhh
    have hnB : hh * cfg.BlockN + j < cfg.fragSizeB * cfg.waveSize := by
      rw [hB]
      exact flat_index_lt _ _ _ _ hhh hj
    have eA : tileOf cfg.BlockK (ldsLoad (slotAOf cfg) (ldLdsOf cfg) cfg.waveSize
        (mmaLoop (loopCtxOf cfg k a b lda ldb eff) k
          (loopSt0Of cfg a b lda ldb lds0)).lds) i hh =
        sliceA cfg a lda (k / cfg.BlockK - 1) i hh := by
      show (mmaLoop (loopCtxOf cfg k a b lda ldb eff) k
          (loopSt0Of cfg a b lda ldb lds0)).lds
          (slotAddr (slotAOf cfg) (ldLdsOf cfg) cfg.waveSize (i * cfg.BlockK + hh)) = _
      rw [eldsA _ hnA, flatOf_encode cfg.BlockK _ i hh hhh]
    have eB : tileOf cfg.BlockN (ldsLoad (slotBOf cfg) (ldLdsOf cfg) cfg.waveSize
        (mmaLoop (loopCtxOf cfg k a b lda ldb eff) k
          (loopSt0Of cfg a b lda ldb lds0)).lds) hh j =
        sliceB cfg b ldb (k / cfg.BlockK - 1) hh j := by
      show (mmaLoop (loopCtxOf cfg k a b lda ldb eff) k
          (loopSt0Of cfg a b lda ldb lds0)).lds
          (slotAddr (slotBOf cfg) (ldLdsOf cfg) cfg.waveSize (hh * cfg.BlockN + j)) = _
      rw [eldsB _ hnB, flatOf_encode cfg.BlockN _ hh j hj]
    rw [eA, eB]
  rw [hsum]
  unfold accAt
  rw [← Finset.sum_range_succ]
  have he : k / cfg.BlockK - 1 + 1 = k / cfg.BlockK := by omega
  rw [he]

lemma accAt_flat (cfg : KCfg) (a b : Mem α) (lda ldb q i j : ℕ) :
    accAt cfg a b lda ldb q i j =
      (Finset.range (q * cfg.BlockK)).sum (fun x =>
        a (dataOffset cfg.layA lda (cfg.tileRow * cfg.BlockM + i) x) *
          b (dataOffset cfg.layB ldb x (cfg.tileCol * cfg.BlockN + j))) := by
  unfold accAt
  rw [← sum_range_block cfg.BlockK q]
  apply Finset.sum_congr rfl
  intro s _
  apply Finset.sum_congr rfl
  intro hh _
  rw [sliceA_addr, sliceB_addr]

lemma dataOffset_inj (lay : Layout) (ld M N : ℕ)
    (hrow : lay = .row_major → N ≤ ld) (hcol : lay = .col_major → M ≤ ld)
    (i j i2 j2 : ℕ) (hi2 : i2 < M) (hj2 : j2 < N) (hi : i < M) (hj : j < N)
    (h : dataOffset lay ld i2 j2 = dataOffset lay ld i j) : i2 = i ∧ j2 = j := by
  cases lay with
  | row_major =>
    have hld := hrow rfl
    simp only [dataOffset] at h
    exact rowcol_inj ld i2 j2 i j (by omega) (by omega) h
  | col_major =>
    have hld := hcol rfl
    simp only [dataOffset] at h
    have e := rowcol_inj ld j2 i2 j i (by omega) (by omega) h
    exact ⟨e.2, e.1⟩

lemma gemm_cpu_h_value (m n k : ℕ) (layA layB layC layD : Layout) (a b c d : Mem α)
    (lda ldb ldc ldd : ℕ) (alpha beta : α) (r cc : ℕ) (hr : r < m) (hc : cc < n)
    (hrowD : layD = .row_major → n ≤ ldd) (hcolD : layD = .col_major → m ≤ ldd) :
    gemm_cpu_h m n k layA layB layC layD a b c d lda ldb ldc ldd alpha beta
        (dataOffset layD ldd r cc) =
      gemmRefVal k layA layB layC a b c lda ldb ldc alpha beta r cc := by
  unfold gemm_cpu_h
  exact writeGrid_hit m n _ _ d r cc hr hc (fun i2 j2 hi2 hj2 he =>
    dataOffset_inj layD ldd m n hrowD hcolD r cc i2 j2 hi2 hj2 hr hc he)

/-- C1 (amended): for an eligible problem -- K an exact multiple of BlockK
with K strictly greater than BlockK (the kernel's guard rejects
K = BlockK), the wave's tile fully inside the output bounds, legal leading
dimensions, a legal wave coordinate, barrier interference respecting slot
ownership, and the build-time fragment-size invariant -- every element of
the output tile written by mmaSyncLds equals the corresponding element
computed by the independent reference gemm_cpu_h, exactly (arithmetic is
embedded exactly, so the comparison tolerance is zero). -/
theorem kernel_matches_reference_gemm (cfg : KCfg) (m n k : ℕ) (a b c d dref : Mem α)
    (lda ldb ldc ldd : ℕ) (alpha beta : α) (lds0 : ℕ → α)
    (eff : ℕ → (ℕ → α) → (ℕ → α)) (heff : EffOk cfg eff)
    (hA : cfg.fragSizeA * cfg.waveSize = cfg.BlockM * cfg.BlockK)
    (hB : cfg.fragSizeB * cfg.waveSize = cfg.BlockK * cfg.BlockN)
    (hwx : cfg.waveX < cfg.wgDimX) (hwy : cfg.waveY < cfg.wgDimY)
    (hBK : 0 < cfg.BlockK) (hlda : 0 < lda)
    (hdvd : cfg.BlockK ∣ k) (hkk : cfg.BlockK < k)
    (hm : cfg.tileRow * cfg.BlockM + cfg.BlockM ≤ m)
    (hn : cfg.tileCol * cfg.BlockN + cfg.BlockN ≤ n)
    (hrowD : cfg.layD = .row_major → n ≤ ldd)
    (hcolD : cfg.layD = .col_major → m ≤ ldd) :
    ∀ i j, i < cfg.BlockM → j < cfg.BlockN →
      mmaSyncLds cfg m n k a b c d lda ldb ldc ldd alpha beta lds0 eff
          (dataOffset cfg.layD ldd (cfg.tileRow * cfg.BlockM + i)
            (cfg.tileCol * cfg.BlockN + j)) =
        gemm_cpu_h m n k cfg.layA cfg.layB cfg.layC cfg.layD a b c dref
          lda ldb ldc ldd alpha beta
          (dataOffset cfg.layD ldd (cfg.tileRow * cfg.BlockM + i)
            (cfg.tileCol * cfg.BlockN + j)) := by
  intro i j hi hj
  have hg : cfg.tileRow * cfg.BlockM < m ∧ cfg.tileCol * cfg.BlockN < n ∧ cfg.BlockK < k :=
    ⟨by omega, by omega, hkk⟩
  unfold mmaSyncLds
  rw [mmaSyncLdsT_pos cfg m n k a b c d lda ldb ldc ldd alpha beta lds0 eff hg]
  show epilogue cfg c d ldc ldd alpha beta (accResOf cfg k a b lda ldb alpha lds0 eff).acc
      (dataOffset cfg.layD ldd (cfg.tileRow * cfg.BlockM + i)
        (cfg.tileCol * cfg.BlockN + j)) = _
  rw [epilogue_value cfg c d ldc ldd alpha beta _ i j hi hj
    (fun hl => le_trans hn (hrowD hl)) (fun hl => le_trans hm (hcolD hl))]
  rw [gemm_cpu_h_value m n k cfg.layA cfg.layB cfg.layC cfg.layD a b c dref lda ldb ldc ldd
    alpha beta (cfg.tileRow * cfg.BlockM + i) (cfg.tileCol * cfg.BlockN + j)
    (by omega) (by omega) hrowD hcolD]
  unfold gemmRefVal
  congr 1
  by_cases ha : alpha = 0
  · rw [ha, zero_mul, zero_mul]
  · rw [accResOf_pos cfg k a b lda ldb alpha lds0 eff ha,
      accPhase_acc cfg k a b lda ldb lds0 eff heff hA hB hwx hwy hBK hlda hkk i j hi hj,
      accAt_flat cfg a b lda ldb (k / cfg.BlockK) i j,
      Nat.div_mul_cancel hdvd]

/-- Witness for the amended C1 at a concrete eligible problem over exactly
embedded natural-number arithmetic (8x8x8 blocks, k = 16, all-ones A and B,
alpha = beta = 1): the kernel and the reference agree at the tile's (0, 0)
element. -/
theorem kernel_matches_reference_gemm_witness :
    @mmaSyncLds ℕ _ _ cfg1 8 8 16 (fun _ => 1) (fun _ => 1) (fun _ => 2) (fun _ => 0)
        8 8 8 8 1 1 (fun _ => 0) noEff
        (dataOffset cfg1.layD 8 (cfg1.tileRow * cfg1.BlockM + 0)
          (cfg1.tileCol * cfg1.BlockN + 0)) =
      gemm_cpu_h 8 8 16 cfg1.layA cfg1.layB cfg1.layC cfg1.layD
        (fun _ => 1) (fun _ => 1) (fun _ => 2) (fun _ => 7) 8 8 8 8 1 1
        (dataOffset cfg1.layD 8 (cfg1.tileRow * cfg1.BlockM + 0)
          (cfg1.tileCol * cfg1.BlockN + 0)) :=
  kernel_matches_reference_gemm cfg1 8 8 16 (fun _ => 1) (fun _ => 1) (fun _ => 2)
    (fun _ => 0) (fun _ => 7) 8 8 8 8 1 1 (fun _ => 0) noEff
    (fun _ _ _ _ => rfl) (by decide) (by decide) (by decide) (by decide) (by decide)
    (by decide) (by decide) (by decide) (by decide) (by decide) (by decide)
    (by decide) 0 0 (by decide) (by decide)

/-- C1 counterexample: K = BlockK = 8 is an exact multiple of BlockK and
the tile is fully in bounds, yet the kernel's guard demands BlockK < K and
the wave writes nothing: D stays 0 at the tile's (0, 0) element while the
reference computes 8 (all-ones A and B, alpha = 1, beta = 0). -/
theorem kernel_matches_reference_cex :
    ¬ (@mmaSyncLds ℕ _ _ cfg1 8 8 8 (fun _ => 1) (fun _ => 1) (fun _ => 0) (fun _ => 0)
        8 8 8 8 1 0 (fun _ => 0) noEff 0 =
      @gemm_cpu_h ℕ _ 8 8 8 cfg1.layA cfg1.layB cfg1.layC cfg1.layD
        (fun _ => 1) (fun _ => 1) (fun _ => 0) (fun _ => 0) 8 8 8 8 1 0 0) := by
  decide

lemma stRel_refl (cfg : KCfg) (st : LoopSt α) : StRel cfg st st :=
  ⟨rfl, rfl, rfl, rfl, fun _ _ _ _ => rfl, fun _ _ => rfl⟩

lemma noEff_effOk (cfg : KCfg) : EffOk cfg (@noEff α) := fun _ _ _ _ => rfl

lemma loopBody_rel (cfg : KCfg) (k : ℕ) (a b : Mem α) (lda ldb : ℕ)
    (eff1 eff2 : ℕ → (ℕ → α) → (ℕ → α)) (he1 : EffOk cfg eff1) (he2 : EffOk cfg eff2)
    (hA : cfg.fragSizeA * cfg.waveSize = cfg.BlockM * cfg.BlockK)
    (hB : cfg.fragSizeB * cfg.waveSize = cfg.BlockK * cfg.BlockN)
    (hwy : cfg.waveY < cfg.wgDimY)
    (st1 st2 : LoopSt α) (hrel : StRel cfg st1 st2) :
    StRel cfg (loopBody (loopCtxOf cfg k a b lda ldb eff1) st1)
      (loopBody (loopCtxOf cfg k a b lda ldb eff2) st2) := by
  obtain ⟨r1, r2, r3, r4, racc, rlds⟩ := hrel
  have hwl := waveSize_le_ldLds cfg hwy
  refine ⟨?_, ?_, ?_, ?_, ?_, ?_⟩
  · show st1.addrA + incrAOf cfg lda = st2.addrA + incrAOf cfg lda
    rw [r1]
  · show st1.addrB + incrBOf cfg ldb = st2.addrB + incrBOf cfg ldb
    rw [r2]
  · show st1.iters + 1 = st2.iters + 1
    rw [r3]
  · show st1.mmas + 1 = st2.mmas + 1
    rw [r4]
  · intro i j hi hj
    show mmaStep cfg.BlockK
        (tileOf cfg.BlockK (ldsLoad (slotAOf cfg) (ldLdsOf cfg) cfg.waveSize
          (eff1 st1.iters st1.lds)))
        (tileOf cfg.BlockN (ldsLoad (slotBOf cfg) (ldLdsOf cfg) cfg.waveSize
          (eff1 st1.iters st1.lds)))
        st1.fragAcc i j =
      mmaStep cfg.BlockK
        (tileOf cfg.BlockK (ldsLoad (slotAOf cfg) (ldLdsOf cfg) cfg.waveSize
          (eff2 st2.iters st2.lds)))
        (tileOf cfg.BlockN (ldsLoad (slotBOf cfg) (ldLdsOf cfg) cfg.waveSize
          (eff2 st2.iters st2.lds)))
        st2.fragAcc i j
    unfold mmaStep
    rw [racc i j hi hj]
    congr 1
    apply Finset.sum_congr rfl
    intro hh hmem
    have hhh := Finset.mem_range.1 hmem
    have hnA : i * cfg.BlockK + hh < cfg.fragSizeA * cfg.waveSize := by
      rw [hA]
      exact flat_index_lt _ _ _ _ hi hhh
    have hnB : hh * cfg.BlockN + j < cfg.fragSizeB * cfg.waveSize := by
      rw [hB]
      exact flat_index_lt _ _ _ _ hhh hj
    have eA : tileOf cfg.BlockK (ldsLoad (slotAOf cfg) (ldLdsOf cfg) cfg.waveSize
        (eff1 st1.iters st1.lds)) i hh =
        tileOf cfg.BlockK (ldsLoad (slotAOf cfg) (ldLdsOf cfg) cfg.waveSize
          (eff2 st2.iters st2.lds)) i hh := by
      show eff1 st1.iters st1.lds
          (slotAddr (slotAOf cfg) (ldLdsOf cfg) cfg.waveSize (i * cfg.BlockK + hh)) =
        eff2 st2.iters st2.lds
          (slotAddr (slotAOf cfg) (ldLdsOf cfg) cfg.waveSize (i * cfg.BlockK + hh))
      rw [eff_reads_slotA cfg eff1 he1 hwy _ _ _ hnA,
        eff_reads_slotA cfg eff2 he2 hwy _ _ _ hnA]
      exact rlds _ (Or.inl (slotAddr_inSlot (slotAOf cfg) (ldLdsOf cfg) cfg.fragSizeA
        cfg.waveSize _ hwl hnA))
    have eB : tileOf cfg.BlockN (ldsLoad (slotBOf cfg) (ldLdsOf cfg) cfg.waveSize
        (eff1 st1.iters st1.lds)) hh j =
        tileOf cfg.BlockN (ldsLoad (slotBOf cfg) (ldLdsOf cfg) cfg.waveSize
          (eff2 st2.iters st2.lds)) hh j := by
      show eff1 st1.iters st1.lds
          (slotAddr (slotBOf cfg) (ldLdsOf cfg) cfg.waveSize (hh * cfg.BlockN + j)) =
        eff2 st2.iters st2.lds
          (slotAddr (slotBOf cfg) (ldLdsOf cfg) cfg.waveSize (hh * cfg.BlockN + j))
      rw [eff_reads_slotB cfg eff1 he1 hwy _ _ _ hnB,
        eff_reads_slotB cfg eff2 he2 hwy _ _ _ hnB]
      exact rlds _ (Or.inr (slotAddr_inSlot (slotBOf cfg) (ldLdsOf cfg) cfg.fragSizeB
        cfg.waveSize _ hwl hnB))
    rw [eA, eB]
  · intro ad had
    show ldsStore (slotBOf cfg) (ldLdsOf cfg) cfg.fragSizeB cfg.waveSize
        (flatOf cfg.BlockN (loadGlobal cfg.layB ldb st1.addrB b))
        (ldsStore (slotAOf cfg) (ldLdsOf cfg) cfg.fragSizeA cfg.waveSize
          (flatOf cfg.BlockK (loadGlobal cfg.layA lda st1.addrA a))
          (eff1 st1.iters st1.lds)) ad =
      ldsStore (slotBOf cfg) (ldLdsOf cfg) cfg.fragSizeB cfg.waveSize
        (flatOf cfg.BlockN (loadGlobal cfg.layB ldb st2.addrB b))
        (ldsStore (slotAOf cfg) (ldLdsOf cfg) cfg.fragSizeA cfg.waveSize
          (flatOf cfg.BlockK (loadGlobal cfg.layA lda st2.addrA a))
          (eff2 st2.iters st2.lds)) ad
    rw [r1, r2]
    by_cases hBin : inSlot (slotBOf cfg) (ldLdsOf cfg) cfg.fragSizeB cfg.waveSize ad
    · rw [ldsStore_hit _ _ _ _ _ _ _ hBin, ldsStore_hit _ _ _ _ _ _ _ hBin]
    · have hAin : inSlot (slotAOf cfg) (ldLdsOf cfg) cfg.fragSizeA cfg.waveSize ad :=
        had.resolve_right hBin
      rw [ldsStore_miss _ _ _ _ _ _ _ hBin, ldsStore_miss _ _ _ _ _ _ _ hBin,
        ldsStore_hit _ _ _ _ _ _ _ hAin, ldsStore_hit _ _ _ _ _ _ _ hAin]

lemma mmaLoop_rel (cfg : KCfg) (k : ℕ) (a b : Mem α) (lda ldb : ℕ)
    (eff1 eff2 : ℕ → (ℕ → α) → (ℕ → α)) (he1 : EffOk cfg eff1) (he2 : EffOk cfg eff2)
    (hA : cfg.fragSizeA * cfg.waveSize = cfg.BlockM * cfg.BlockK)
    (hB : cfg.fragSizeB * cfg.waveSize = cfg.BlockK * cfg.BlockN)
    (hwy : cfg.waveY < cfg.wgDimY) :
    ∀ fuel st1 st2, StRel cfg st1 st2 →
      StRel cfg (mmaLoop (loopCtxOf cfg k a b lda ldb eff1) fuel st1)
        (mmaLoop (loopCtxOf cfg k a b lda ldb eff2) fuel st2) := by
  intro fuel
  induction fuel with
  | zero =>
    intro st1 st2 h
    rw [mmaLoop_zero, mmaLoop_zero]
    exact h
  | succ fuel ih =>
    intro st1 st2 h
    rw [mmaLoop_succ, mmaLoop_succ]
    have hcond : st1.addrA = (loopCtxOf cfg k a b lda ldb eff1).endA ↔
        st2.addrA = (loopCtxOf cfg k a b lda ldb eff2).endA := by
      rw [h.1]
      exact Iff.rfl
    by_cases hc : st1.addrA = (loopCtxOf cfg k a b lda ldb eff1).endA
    · rw [if_pos hc, if_pos (hcond.1 hc)]
      exact h
    · rw [if_neg hc, if_neg (fun hx => hc (hcond.2 hx))]
      exact ih _ _ (loopBody_rel cfg k a b lda ldb eff1 eff2 he1 he2 hA hB hwy st1 st2 h)

lemma accPhase_rel (cfg : KCfg) (k : ℕ) (a b : Mem α) (lda ldb : ℕ) (lds0 : ℕ → α)
    (eff1 eff2 : ℕ → (ℕ → α) → (ℕ → α)) (he1 : EffOk cfg eff1) (he2 : EffOk cfg eff2)
    (hA : cfg.fragSizeA * cfg.waveSize = cfg.BlockM * cfg.BlockK)
    (hB : cfg.fragSizeB * cfg.waveSize = cfg.BlockK * cfg.BlockN)
    (hwy : cfg.waveY < cfg.wgDimY) (i j : ℕ) (hi : i < cfg.BlockM) (hj : j < cfg.BlockN) :
    (accPhase cfg k a b lda ldb lds0 eff1).acc i j =
      (accPhase cfg k a b lda ldb lds0 eff2).acc i j := by
  have hwl := waveSize_le_ldLds cfg hwy
  have hrel := mmaLoop_rel cfg k a b lda ldb eff1 eff2 he1 he2 hA hB hwy k
    (loopSt0Of cfg a b lda ldb lds0) (loopSt0Of cfg a b lda ldb lds0)
    (stRel_refl cfg _)
  obtain ⟨r1, r2, r3, r4, racc, rlds⟩ := hrel
  show mmaStep cfg.BlockK
      (tileOf cfg.BlockK (ldsLoad (slotAOf cfg) (ldLdsOf cfg) cfg.waveSize
        (mmaLoop (loopCtxOf cfg k a b lda ldb eff1) k
          (loopSt0Of cfg a b lda ldb lds0)).lds))
      (tileOf cfg.BlockN (ldsLoad (slotBOf cfg) (ldLdsOf cfg) cfg.waveSize
        (mmaLoop (loopCtxOf cfg k a b lda ldb eff1) k
          (loopSt0Of cfg a b lda ldb lds0)).lds))
      (mmaLoop (loopCtxOf cfg k a b lda ldb eff1) k
        (loopSt0Of cfg a b lda ldb lds0)).fragAcc i j =
    mmaStep cfg.BlockK
      (tileOf cfg.BlockK (ldsLoad (slotAOf cfg) (ldLdsOf cfg) cfg.waveSize
        (mmaLoop (loopCtxOf cfg k a b lda ldb eff2) k
          (loopSt0Of cfg a b lda ldb lds0)).lds))
      (tileOf cfg.BlockN (ldsLoad (slotBOf cfg) (ldLdsOf cfg) cfg.waveSize
        (mmaLoop (loopCtxOf cfg k a b lda ldb eff2) k
          (loopSt0Of cfg a b lda ldb lds0)).lds))
      (mmaLoop (loopCtxOf cfg k a b lda ldb eff2) k
        (loopSt0Of cfg a b lda ldb lds0)).fragAcc i j
  unfold mmaStep
  rw [racc i j hi hj]
  congr 1
  apply Finset.sum_congr rfl
  intro hh hmem
  have hhh := Finset.mem_range.1 hmem
  have hnA : i * cfg.BlockK + hh < cfg.fragSizeA * cfg.waveSize := by
    rw [hA]
    exact flat_index_lt _ _ _ _ hi hhh
  have hnB : hh * cfg.BlockN + j < cfg.fragSizeB * cfg.waveSize := by
    rw [hB]
    exact flat_index_lt _ _ _ _ hhh hj
  have eA := rlds (slotAddr (slotAOf cfg) (ldLdsOf cfg) cfg.waveSize (i * cfg.BlockK + hh))
    (Or.inl (slotAddr_inSlot (slotAOf cfg) (ldLdsOf cfg) cfg.fragSizeA cfg.waveSize _ hwl hnA))
  have eB := rlds (slotAddr (slotBOf cfg) (ldLdsOf cfg) cfg.waveSize (hh * cfg.BlockN + j))
    (Or.inr (slotAddr_inSlot (slotBOf cfg) (ldLdsOf cfg) cfg.fragSizeB cfg.waveSize _ hwl hnB))
  show (mmaLoop (loopCtxOf cfg k a b lda ldb eff1) k (loopSt0Of cfg a b lda ldb lds0)).lds
      (slotAddr (slotAOf cfg) (ldLdsOf cfg) cfg.waveSize (i * cfg.BlockK + hh)) *
    (mmaLoop (loopCtxOf cfg k a b lda ldb eff1) k (loopSt0Of cfg a b lda ldb lds0)).lds
      (slotAddr (slotBOf cfg) (ldLdsOf cfg) cfg.waveSize (hh * cfg.BlockN + j)) = _
  rw [eA, eB]
  rfl

/-- C5: replacing the per-iteration workgroup barrier with a no-op leaves
the kernel's output D bit-identical, for every input and every barrier
interference that respects the slot-ownership discipline (each wave only
ever reads and writes its own staging-buffer slots): the barrier is not
required for correctness. -/
theorem barrier_removal_bitidentical (cfg : KCfg) (m n k : ℕ) (a b c d : Mem α)
    (lda ldb ldc ldd : ℕ) (alpha beta : α) (lds0 : ℕ → α)
    (eff : ℕ → (ℕ → α) → (ℕ → α)) (heff : EffOk cfg eff)
    (hA : cfg.fragSizeA * cfg.waveSize = cfg.BlockM * cfg.BlockK)
    (hB : cfg.fragSizeB * cfg.waveSize = cfg.BlockK * cfg.BlockN)
    (hwy : cfg.waveY < cfg.wgDimY) :
    mmaSyncLds cfg m n k a b c d lda ldb ldc ldd alpha beta lds0 eff =
      mmaSyncLds cfg m n k a b c d lda ldb ldc ldd alpha beta lds0 noEff := by
  by_cases hg : cfg.tileRow * cfg.BlockM < m ∧ cfg.tileCol * cfg.BlockN < n ∧ cfg.BlockK < k
  · unfold mmaSyncLds
    rw [mmaSyncLdsT_pos cfg m n k a b c d lda ldb ldc ldd alpha beta lds0 eff hg,
      mmaSyncLdsT_pos cfg m n k a b c d lda ldb ldc ldd alpha beta lds0 noEff hg]
    show epilogue cfg c d ldc ldd alpha beta (accResOf cfg k a b lda ldb alpha lds0 eff).acc =
      epilogue cfg c d ldc ldd alpha beta (accResOf cfg k a b lda ldb alpha lds0 noEff).acc
    by_cases ha : alpha = 0
    · subst ha
      rw [accResOf_zero cfg k a b lda ldb lds0 eff, accResOf_zero cfg k a b lda ldb lds0 noEff]
    · rw [accResOf_pos cfg k a b lda ldb alpha lds0 eff ha,
        accResOf_pos cfg k a b lda ldb alpha lds0 noEff ha,
        epilogue_eq_writeGrid, epilogue_eq_writeGrid]
      apply writeGrid_congr
      intro i j hi hj
      rw [accPhase_rel cfg k a b lda ldb lds0 eff noEff heff (noEff_effOk cfg)
        hA hB hwy i j hi hj]
  · unfold mmaSyncLds
    rw [mmaSyncLdsT_neg cfg m n k a b c d lda ldb ldc ldd alpha beta lds0 eff hg,
      mmaSyncLdsT_neg cfg m n k a b c d lda ldb ldc ldd alpha beta lds0 noEff hg]

lemma eff128_ok : EffOk cfg1 (fun _ mem ad => if 128 ≤ ad then (42 : ℕ) else mem ad) := by
  intro t mem ad h
  have hlt : ad < 128 := by
    rcases h with h | h
    · have h2 := h.2.1
      have e1 : slotAOf cfg1 = 0 := rfl
      have e2 : ldLdsOf cfg1 = 64 := rfl
      have e3 : cfg1.fragSizeA = 1 := rfl
      rw [e1, e2, e3] at h2
      omega
    · have h1 := h.1
      have h2 := h.2.1
      have e1 : slotBOf cfg1 = 64 := rfl
      have e2 : ldLdsOf cfg1 = 64 := rfl
      have e3 : cfg1.fragSizeB = 1 := rfl
      rw [e1, e2, e3] at h2
      rw [e1] at h1
      omega
  show (if 128 ≤ ad then 42 else mem ad) = mem ad
  rw [if_neg (by omega)]

/-- Witness for C5: a nontrivial interference that rewrites every shared
address from 128 on (outside the single wave's two slots, which end at 127)
leaves the kernel's output identical to the barrier-free run. -/
theorem barrier_removal_bitidentical_witness :
    @mmaSyncLds ℕ _ _ cfg1 8 8 16 (fun _ => 1) (fun _ => 1) (fun _ => 0) (fun _ => 0)
        8 8 8 8 1 1 (fun _ => 0) (fun _ mem ad => if 128 ≤ ad then 42 else mem ad) =
      @mmaSyncLds ℕ _ _ cfg1 8 8 16 (fun _ => 1) (fun _ => 1) (fun _ => 0) (fun _ => 0)
        8 8 8 8 1 1 (fun _ => 0) noEff :=
  barrier_removal_bitidentical cfg1 8 8 16 (fun _ => 1) (fun _ => 1) (fun _ => 0)
    (fun _ => 0) 8 8 8 8 1 1 (fun _ => 0)
    (fun _ mem ad => if 128 ≤ ad then 42 else mem ad) eff128_ok
    (by decide) (by decide) (by decide)

lemma ceLoop_nil (a b : ℕ → FVal) (st : CmpSt) : ceLoop a b [] st = st := rfl

lemma ceLoop_cons (a b : ℕ → FVal) (i : ℕ) (t : List ℕ) (st : CmpSt) :
    ceLoop a b (i :: t) st =
      if st.isInf || st.isNaN then st else ceLoop a b t (ceStep st (a i) (b i)) := rfl

lemma ceLoop_sticky (a b : ℕ → FVal) (l : List ℕ) (st : CmpSt)
    (h : st.isInf = true ∨ st.isNaN = true) : ceLoop a b l st = st := by
  cases l with
  | nil => rfl
  | cons i t =>
    rw [ceLoop_cons, if_pos]
    rcases h with h | h <;> simp [h]

lemma ceLoop_append (a b : ℕ → FVal) (l1 l2 : List ℕ) (st : CmpSt) :
    ceLoop a b (l1 ++ l2) st = ceLoop a b l2 (ceLoop a b l1 st) := by
  induction l1 generalizing st with
  | nil => rfl
  | cons i t ih =>
    rw [List.cons_append, ceLoop_cons, ceLoop_cons]
    by_cases h : (st.isInf || st.isNaN) = true
    · rw [if_pos h, if_pos h, ceLoop_sticky a b l2 st (by simpa using h)]
    · rw [if_neg h, if_neg h]
      exact ih _

lemma ceStep_fin (st : CmpSt) (x y : ℚ) :
    ceStep st (.fin x) (.fin y) =
      if flt st.maxRel (.fin (relErrQ x y)) then { st with maxRel := .fin (relErrQ x y) }
      else st := by
  have hd : |x| + |y| + 1 ≠ 0 := by positivity
  simp [ceStep, fabs, fsub, fadd, fdiv, fisinf, fisnan, hd, relErrQ]

lemma ceStep_fin_flags (st : CmpSt) (x y : ℚ) :
    (ceStep st (.fin x) (.fin y)).isInf = st.isInf ∧
      (ceStep st (.fin x) (.fin y)).isNaN = st.isNaN := by
  rw [ceStep_fin]
  by_cases h : flt st.maxRel (.fin (relErrQ x y)) = true <;> simp [h]

lemma ceStep_pairInf (st : CmpSt) (av bv : FVal) (h : pairInf av bv = true) :
    ceStep st av bv = { st with isInf := true } := by
  unfold pairInf at h
  simp only [ceStep]
  rw [h]
  simp

lemma pairNaN_split (av bv : FVal) (h : pairNaN av bv = true) :
    pairInf av bv = false ∧
      fisnan (fdiv (fabs (fsub av bv))
        (fadd (fadd (fabs av) (fabs bv)) (FVal.fin 1))) = true := by
  unfold pairNaN at h
  simpa using h

lemma ceStep_pairNaN (st : CmpSt) (av bv : FVal) (h : pairNaN av bv = true) :
    ceStep st av bv = { st with isNaN := true } := by
  obtain ⟨hInf, hN⟩ := pairNaN_split av bv h
  unfold pairInf at hInf
  simp only [ceStep]
  rw [hInf, hN]
  simp

lemma ceStep_quiet_flags (st : CmpSt) (av bv : FVal)
    (hInf : pairInf av bv = false) (hNaN : pairNaN av bv = false) :
    (ceStep st av bv).isInf = st.isInf ∧ (ceStep st av bv).isNaN = st.isNaN := by
  have hN : fisnan (fdiv (fabs (fsub av bv))
      (fadd (fadd (fabs av) (fabs bv)) (FVal.fin 1))) = false := by
    unfold pairNaN at hNaN
    rw [hInf] at hNaN
    simpa using hNaN
  unfold pairInf at hInf
  simp only [ceStep]
  rw [hInf, hN]
  by_cases h : flt st.maxRel (fdiv (fabs (fsub av bv))
    (fadd (fadd (fabs av) (fabs bv)) (FVal.fin 1))) = true <;> simp [h]

lemma ceStep_abn (st : CmpSt) (av bv : FVal)
    (h : ffin av = false ∨ ffin bv = false) :
    (ceStep st av bv).isInf = true ∨ (ceStep st av bv).isNaN = true := by
  cases av <;> cases bv <;>
    simp [ffin] at h ⊢ <;>
    simp [ceStep, fabs, fsub, fadd, fdiv, fisinf, fisnan]

lemma ffin_fin (v : FVal) (h : ffin v = true) : ∃ x, v = .fin x := by
  cases v <;> simp [ffin] at h ⊢

lemma relErrQ_nonneg (x y : ℚ) : 0 ≤ relErrQ x y := by
  unfold relErrQ
  positivity

lemma ceStep_inv (a b : ℕ → FVal) (pre : List ℕ) (i : ℕ) (st : CmpSt)
    (hfa : ffin (a i) = true) (hfb : ffin (b i) = true) (hinv : CmpInv a b pre st) :
    CmpInv a b (pre ++ [i]) (ceStep st (a i) (b i)) := by
  obtain ⟨h1, h2, M, hM, hM0, hbd, hat⟩ := hinv
  obtain ⟨x, hx⟩ := ffin_fin (a i) hfa
  obtain ⟨y, hy⟩ := ffin_fin (b i) hfb
  have hrel : relErrOf a b i = relErrQ x y := by
    unfold relErrOf
    rw [hx, hy]
    rfl
  rw [hx, hy, ceStep_fin, hM]
  by_cases hlt : M < relErrQ x y
  · rw [if_pos (by simp [flt, hlt])]
    refine ⟨h1, h2, relErrQ x y, rfl, relErrQ_nonneg x y, ?_, ?_⟩
    · intro i2 hi2
      rcases List.mem_append.1 hi2 with hm | hm
      · exact le_trans (hbd i2 hm) (le_of_lt hlt)
      · rw [List.mem_singleton.1 hm, hrel]
    · exact Or.inr ⟨i, List.mem_append.2 (Or.inr (List.mem_singleton.2 rfl)), hrel⟩
  · rw [if_neg (by simp [flt, hlt])]
    refine ⟨h1, h2, M, hM, hM0, ?_, ?_⟩
    · intro i2 hi2
      rcases List.mem_append.1 hi2 with hm | hm
      · exact hbd i2 hm
      · rw [List.mem_singleton.1 hm, hrel]
        exact le_of_not_lt hlt
    · rcases hat with hz | ⟨i2, hm, he⟩
      · exact Or.inl hz
      · exact Or.inr ⟨i2, List.mem_append.2 (Or.inl hm), he⟩

lemma ceLoop_inv (a b : ℕ → FVal) :
    ∀ (l pre : List ℕ) (st : CmpSt),
      (∀ i ∈ l, ffin (a i) = true ∧ ffin (b i) = true) → CmpInv a b pre st →
      CmpInv a b (pre ++ l) (ceLoop a b l st) := by
  intro l
  induction l with
  | nil =>
    intro pre st _ h
    rw [ceLoop_nil, List.append_nil]
    exact h
  | cons i t ih =>
    intro pre st hfin hinv
    rw [ceLoop_cons, if_neg (by rw [hinv.1, hinv.2.1]; simp)]
    have hstep := ceStep_inv a b pre i st (hfin i (by simp)).1 (hfin i (by simp)).2 hinv
    have hres := ih (pre ++ [i]) (ceStep st (a i) (b i))
      (fun j hj => hfin j (by simp [hj])) hstep
    rw [List.append_cons]
    exact hres

lemma compareEqual_result (a b : ℕ → FVal) (size : ℕ) (eps tol : ℚ) :
    compareEqual a b size eps tol =
      (if (ceLoop a b (List.range size) ⟨.fin 0, false, false⟩).isInf then (false, FVal.inf)
      else if (ceLoop a b (List.range size) ⟨.fin 0, false, false⟩).isNaN then
        (false, FVal.nan)
      else (!(flt (FVal.fin (eps * tol))
          (ceLoop a b (List.range size) ⟨.fin 0, false, false⟩).maxRel),
        (ceLoop a b (List.range size) ⟨.fin 0, false, false⟩).maxRel)) := rfl

lemma ceLoop_quiet (a b : ℕ → FVal) :
    ∀ (l : List ℕ) (st : CmpSt), st.isInf = false → st.isNaN = false →
      (∀ i ∈ l, pairInf (a i) (b i) = false ∧ pairNaN (a i) (b i) = false) →
      (ceLoop a b l st).isInf = false ∧ (ceLoop a b l st).isNaN = false := by
  intro l
  induction l with
  | nil =>
    intro st h1 h2 _
    exact ⟨h1, h2⟩
  | cons i t ih =>
    intro st h1 h2 hq
    rw [ceLoop_cons, if_neg (by rw [h1, h2]; simp)]
    have hstep := ceStep_quiet_flags st (a i) (b i) (hq i (by simp)).1 (hq i (by simp)).2
    exact ih (ceStep st (a i) (b i)) (hstep.1.trans h1) (hstep.2.trans h2)
      (fun j hj => hq j (by simp [hj]))

lemma ceLoop_abn (a b : ℕ → FVal) :
    ∀ (l : List ℕ) (st : CmpSt), st.isInf = false → st.isNaN = false →
      (∃ i ∈ l, ffin (a i) = false ∨ ffin (b i) = false) →
      ((ceLoop a b l st).isInf = true ∨ (ceLoop a b l st).isNaN = true) := by
  intro l
  induction l with
  | nil =>
    intro st _ _ h
    simp at h
  | cons i t ih =>
    intro st h1 h2 h
    rw [ceLoop_cons, if_neg (by rw [h1, h2]; simp)]
    by_cases habn : ffin (a i) = false ∨ ffin (b i) = false
    · rcases ceStep_abn st (a i) (b i) habn with hs | hs
      · rw [ceLoop_sticky a b t _ (Or.inl hs)]
        exact Or.inl hs
      · rw [ceLoop_sticky a b t _ (Or.inr hs)]
        exact Or.inr hs
    · have hfa : ffin (a i) = true := by
        cases hv : ffin (a i)
        · exact absurd (Or.inl hv) habn
        · rfl
      have hfb : ffin (b i) = true := by
        cases hv : ffin (b i)
        · exact absurd (Or.inr hv) habn
        · rfl
      obtain ⟨x, hx⟩ := ffin_fin (a i) hfa
      obtain ⟨y, hy⟩ := ffin_fin (b i) hfb
      have hflags : (ceStep st (a i) (b i)).isInf = st.isInf ∧
          (ceStep st (a i) (b i)).isNaN = st.isNaN := by
        rw [hx, hy]
        exact ceStep_fin_flags st x y
      obtain ⟨j, hj, hjab⟩ := h
      rcases List.mem_cons.1 hj with hji | hjt
      · rw [hji] at hjab
        exact absurd hjab habn
      · exact ih (ceStep st (a i) (b i)) (hflags.1.trans h1) (hflags.2.trans h2)
          ⟨j, hjt, hjab⟩

/-- C10 (amended): compareEqual computes the per-element relative error as
fabs(a-b) / (fabs(a)+fabs(b)+1), scans indices in order and stops at the
first abnormal pair: it returns (false, inf) when the first abnormal pair
has an infinite numerator or divisor, (false, NaN) when the first abnormal
pair has a NaN relative error (even if a later pair is infinite), with
pass = true exactly when the maximum relative error is at most
eps * tolerance over all-finite data, and any Inf or NaN anywhere in either
array makes validation fail regardless of tolerance. -/
theorem compareEqual_spec (a b : ℕ → FVal) (size : ℕ) (eps tol : ℚ) :
    ((0 ≤ eps * tol) → (∀ i, i < size → ffin (a i) = true ∧ ffin (b i) = true) →
      ((compareEqual a b size eps tol).1 = true ↔
        ∀ i, i < size → relErrOf a b i ≤ eps * tol)) ∧
    ((∃ i, i < size ∧ (ffin (a i) = false ∨ ffin (b i) = false)) →
      (compareEqual a b size eps tol).1 = false) ∧
    (∀ i0, i0 < size →
      (∀ i, i < i0 → pairInf (a i) (b i) = false ∧ pairNaN (a i) (b i) = false) →
      (pairInf (a i0) (b i0) = true → compareEqual a b size eps tol = (false, FVal.inf)) ∧
      (pairNaN (a i0) (b i0) = true → compareEqual a b size eps tol = (false, FVal.nan))) := by
  refine ⟨?_, ?_, ?_⟩
  · intro het hfin
    have hinv0 : CmpInv a b [] ⟨.fin 0, false, false⟩ :=
      ⟨rfl, rfl, 0, rfl, le_refl 0, by simp, Or.inl rfl⟩
    have hinv := ceLoop_inv a b (List.range size) [] _
      (fun i hi => hfin i (List.mem_range.1 hi)) hinv0
    rw [List.nil_append] at hinv
    obtain ⟨h1, h2, M, hM, hM0, hbd, hat⟩ := hinv
    rw [compareEqual_result, h1, h2, hM]
    rw [if_neg Bool.false_ne_true, if_neg Bool.false_ne_true]
    show (!(flt (FVal.fin (eps * tol)) (FVal.fin M))) = true ↔ _
    have hiff : (!(flt (FVal.fin (eps * tol)) (FVal.fin M))) = true ↔ M ≤ eps * tol := by
      simp [flt, not_lt]
    rw [hiff]
    constructor
    · intro hMle i hi
      exact le_trans (hbd i (List.mem_range.2 hi)) hMle
    · intro hall
      rcases hat with hz | ⟨i, hm, he⟩
      · rw [hz]
        exact het
      · rw [← he]
        exact hall i (List.mem_range.1 hm)
  · rintro ⟨i, hi, habn⟩
    have hflag := ceLoop_abn a b (List.range size) ⟨.fin 0, false, false⟩ rfl rfl
      ⟨i, List.mem_range.2 hi, habn⟩
    rw [compareEqual_result]
    rcases hflag with hf | hf
    · rw [if_pos hf]
    · by_cases hI : (ceLoop a b (List.range size) ⟨.fin 0, false, false⟩).isInf = true
      · rw [if_pos hI]
      · rw [if_neg hI, if_pos hf]
  · intro i0 hi0 hpre
    have hdec : List.range size =
        (List.range i0 ++ [i0]) ++ (List.range (size - (i0 + 1))).map ((i0 + 1) + ·) := by
      rw [← List.range_succ, ← List.range_add]
      congr 1
      omega
    have hq := ceLoop_quiet a b (List.range i0) ⟨.fin 0, false, false⟩ rfl rfl
      (fun i hi => hpre i (List.mem_range.1 hi))
    have hstep : ceLoop a b [i0] (ceLoop a b (List.range i0) ⟨.fin 0, false, false⟩) =
        ceStep (ceLoop a b (List.range i0) ⟨.fin 0, false, false⟩) (a i0) (b i0) := by
      rw [ceLoop_cons, if_neg (by rw [hq.1, hq.2]; simp)]
      rfl
    constructor
    · intro hInf
      have e1 : ceLoop a b (List.range size) ⟨.fin 0, false, false⟩ =
          { ceLoop a b (List.range i0) ⟨.fin 0, false, false⟩ with isInf := true } := by
        rw [hdec, ceLoop_append, ceLoop_append, hstep,
          ceStep_pairInf _ (a i0) (b i0) hInf]
        exact ceLoop_sticky a b _ _ (Or.inl rfl)
      rw [compareEqual_result, e1]
      rw [if_pos (show ({ ceLoop a b (List.range i0) ⟨.fin 0, false, false⟩ with
        isInf := true } : CmpSt).isInf = true from rfl)]
    · intro hNaN
      have e1 : ceLoop a b (List.range size) ⟨.fin 0, false, false⟩ =
          { ceLoop a b (List.range i0) ⟨.fin 0, false, false⟩ with isNaN := true } := by
        rw [hdec, ceLoop_append, ceLoop_append, hstep,
          ceStep_pairNaN _ (a i0) (b i0) hNaN]
        exact ceLoop_sticky a b _ _ (Or.inr rfl)
      rw [compareEqual_result, e1]
      rw [if_neg (show ¬ ({ ceLoop a b (List.range i0) ⟨.fin 0, false, false⟩ with
          isNaN := true } : CmpSt).isInf = true from by
        show ¬ (ceLoop a b (List.range i0) ⟨.fin 0, false, false⟩).isInf = true
        rw [hq.1]
        exact Bool.false_ne_true)]
      rw [if_pos (show ({ ceLoop a b (List.range i0) ⟨.fin 0, false, false⟩ with
        isNaN := true } : CmpSt).isNaN = true from rfl)]

/-- Witness for the amended C10: an array with an infinite first element
fails immediately with (false, inf). -/
theorem compareEqual_spec_witness :
    compareEqual (fun _ => FVal.inf) (fun _ => FVal.fin 0) 1 1 10 = (false, FVal.inf) :=
  ((compareEqual_spec (fun _ => FVal.inf) (fun _ => FVal.fin 0) 1 1 10).2.2 0 (by decide)
    (fun i hi => absurd hi (Nat.not_lt_zero i))).1 (by decide)

/-- C10 counterexample: with a NaN at index 0 and an infinity at index 1,
index 1 is an element pair with an infinite numerator, so by the claim the
comparator must return (false, infinity); the code stops its scan at the
first abnormal index and returns (false, NaN) instead. -/
theorem compareEqual_inf_priority_cex :
    compareEqual (fun i => if i = 0 then FVal.nan else FVal.inf) (fun _ => FVal.fin 0)
        2 1 10 = (false, FVal.nan) ∧
      pairInf ((fun i => if i = 0 then FVal.nan else FVal.inf) 1)
        ((fun _ => FVal.fin 0) 1) = true ∧
      compareEqual (fun i => if i = 0 then FVal.nan else FVal.inf) (fun _ => FVal.fin 0)
        2 1 10 ≠ (false, FVal.inf) := by
  refine ⟨by decide, by decide, by decide⟩

end RocWmma
